import Mathlib

/-!
Verification of the alphalend-supply repository (Sui TBTC query scripts).

The development shallowly embeds the Python sources:
  * `app.py`            — `humanize_amount`
  * `alphafi_tbtc.py`   — `enumerate_dynamic_objects`, `generic_extract_amounts`,
                          `find_coin_type`, `fetch_blockberry_tbtc` retry loop,
                          the Blockberry fallback block of `query_alphafi_tbtc`
  * `alphalend_tbtc.py` — `find_tbtc_in_object_content`, the price/supply
                          fallback merge of `query_alphalend_tbtc`
  * `bucket_tbtc.py`    — `extract_amount_like_fields`, the aggregation loop of
                          `query_bucket_tbtc`

Decoded JSON values are modelled by the inductive `GV`; Python dicts are
ordered association lists (insertion order), Python `None` is `GV.null`,
and fallible operations return `Option`/`Except`.
-/

namespace AlphalendSupply

/-- Decoded JSON value (the "GenericValue" of the spec): the common input type
of all extraction routines.  Mappings keep insertion order, like Python dicts. -/
inductive GV where
  | null : GV
  | bool (b : Bool) : GV
  | num (n : Int) : GV
  | str (s : String) : GV
  | arr (elems : List GV) : GV
  | obj (fields : List (String × GV)) : GV

namespace GV

/-- First-occurrence lookup in an association list (Python dict keys are
unique, so this is ordinary `dict.get`). -/
def lookupFs : List (String × GV) → String → Option GV
  | [], _ => none
  | (k', v) :: rest, k => if k' = k then some v else lookupFs rest k

/-- `d.get(k)` for a dict `d`; attribute access on non-dicts is modelled as
absent (the embedded code only reaches `.get` on dict-shaped values, or the
resulting exception is handled where the source handles it). -/
def pyGet : GV → String → Option GV
  | .obj fs, k => lookupFs fs k
  | _, _ => none

/-- `d.get(k, default)`. -/
def pyGetD (d : GV) (k : String) (dflt : GV) : GV :=
  (pyGet d k).getD dflt

/-- Python truthiness of a decoded JSON value. -/
def truthy : GV → Bool
  | .null => false
  | .bool b => b
  | .num n => n != 0
  | .str s => s != ""
  | .arr xs => !xs.isEmpty
  | .obj fs => !fs.isEmpty

/-- `isinstance(v, dict)`. -/
def isDict : GV → Bool
  | .obj _ => true
  | _ => false

/-- `isinstance(v, list)`. -/
def isList : GV → Bool
  | .arr _ => true
  | _ => false

/-- A Python variable holding `d.get(k)` "is None" when the key is absent or
maps to JSON null; `pyVar` returns `none` exactly in those cases. -/
def pyVar (d : GV) (k : String) : Option GV :=
  match pyGet d k with
  | some GV.null => none
  | some v => some v
  | none => none

/-- `x or dflt` for a fetched value `x` (Python `or` on truthiness). -/
def pyOr (v : GV) (dflt : GV) : GV :=
  if truthy v then v else dflt

end GV

/-- Substring test on character lists: `pat` occurs inside the list. -/
def containsSub (pat : List Char) : List Char → Bool
  | [] => pat.isEmpty
  | c :: rest => pat.isPrefixOf (c :: rest) || containsSub pat rest

/-- Python `pat in s` for strings. -/
def strContainsStr (s pat : String) : Bool :=
  containsSub pat.toList s.toList

/-- Decimal digit value of a character, if it is a digit. -/
def digitVal? (c : Char) : Option Nat :=
  if c.isDigit then some (c.toNat - 48) else none

/-- Accumulating decimal evaluation of a digit string (most significant
digit first); fails on any non-digit character. -/
def digitsValAux : Nat → List Char → Option Nat
  | acc, [] => some acc
  | acc, c :: rest =>
    match digitVal? c with
    | some d => digitsValAux (acc * 10 + d) rest
    | none => none

/-- Value of a non-empty decimal digit string. -/
def digitsVal (cs : List Char) : Option Nat :=
  if cs.isEmpty then none else digitsValAux 0 cs

/-- Strip spaces, then parse an optional sign followed by digits: the model of
Python `int(s)` on the decimal string forms produced by JSON-RPC responses. -/
def parsePyInt (s : String) : Option Int :=
  let cs := s.toList.dropWhile (fun c => c.isWhitespace)
  let cs := (cs.reverse.dropWhile (fun c => c.isWhitespace)).reverse
  match cs with
  | '-' :: rest => (digitsVal rest).map (fun n => -(n : Int))
  | '+' :: rest => (digitsVal rest).map (fun n => (n : Int))
  | _ => (digitsVal cs).map (fun n => (n : Int))

/-- Python `int(v)` on a decoded JSON value.  `bool` is an `int` subclass in
Python, so `True`/`False` convert to 1/0; other types fail. -/
def pyInt : GV → Option Int
  | .bool b => some (if b then 1 else 0)
  | .num n => some n
  | .str s => parsePyInt s
  | _ => none

/-- `isinstance(v, (int, str))` — true for JSON booleans as well, since Python
`bool` is a subclass of `int`. -/
def isIntOrStr : GV → Bool
  | .bool _ => true
  | .num _ => true
  | .str _ => true
  | _ => false

/-- Structural induction on `GV` that hands the inductive hypothesis to every
member of a sequence and to every value of a mapping. -/
theorem GV.deepInduction (P : GV → Prop)
    (hnull : P .null) (hbool : ∀ b, P (.bool b)) (hnum : ∀ n, P (.num n))
    (hstr : ∀ s, P (.str s))
    (harr : ∀ xs, (∀ x ∈ xs, P x) → P (.arr xs))
    (hobj : ∀ fs, (∀ kv ∈ fs, P (Prod.snd kv)) → P (.obj fs)) :
    ∀ d, P d
  | .null => hnull
  | .bool b => hbool b
  | .num n => hnum n
  | .str s => hstr s
  | .arr xs => harr xs (fun x hx =>
      have : sizeOf x < 1 + sizeOf xs := by
        have := List.sizeOf_lt_of_mem hx
        omega
      GV.deepInduction P hnull hbool hnum hstr harr hobj x)
  | .obj fs => hobj fs (fun kv hkv =>
      have : sizeOf kv.2 < 1 + sizeOf fs := by
        have h1 := List.sizeOf_lt_of_mem hkv
        have h2 : sizeOf kv.2 < sizeOf kv := by
          obtain ⟨a, b⟩ := kv
          simp only [Prod.mk.sizeOf_spec]
          omega
        omega
      GV.deepInduction P hnull hbool hnum hstr harr hobj kv.2)
termination_by d => sizeOf d

/-! ## Decimal rendering: `humanize_amount` (app.py lines 116-123) -/

/-- The ten decimal digit characters. -/
def digitChar : Nat → Char
  | 0 => '0' | 1 => '1' | 2 => '2' | 3 => '3' | 4 => '4'
  | 5 => '5' | 6 => '6' | 7 => '7' | 8 => '8' | 9 => '9'
  | _ => '*'

/-- Decimal digits of `n`, least significant first. -/
def natDigitsRev (n : Nat) : List Char :=
  if h : n < 10 then [digitChar n]
  else digitChar (n % 10) :: natDigitsRev (n / 10)
decreasing_by exact Nat.div_lt_self (by omega) (by omega)

/-- Python `str(n)` for a non-negative integer. -/
def pyStrNat (n : Nat) : String :=
  String.mk (natDigitsRev n).reverse

/-- `s.rjust(w, "0")` on a character list. -/
def rjustZeros (cs : List Char) (w : Nat) : List Char :=
  List.replicate (w - cs.length) '0' ++ cs

/-- `s.rstrip("0")` on a character list. -/
def rstripZeros (cs : List Char) : List Char :=
  (cs.reverse.dropWhile (fun c => c == '0')).reverse

/-- `humanize_amount(amount, decimals)` from app.py (identical copies live in
alphalend_tbtc.py and alphafi_tbtc.py).  The claims quantify over non-negative
amounts, so the amount is taken as a `Nat`; `decimals` stays an `Int` to keep
the `decimals <= 0` branch of the source. -/
def humanize_amount (amount : Nat) (decimals : Int) : String :=
  if decimals ≤ 0 then pyStrNat amount
  else
    let scale : Nat := 10 ^ decimals.toNat
    let integer := amount / scale
    let frac := amount % scale
    let fracStr := rstripZeros (rjustZeros (natDigitsRev frac).reverse decimals.toNat)
    if fracStr.isEmpty then pyStrNat integer
    else String.mk ((natDigitsRev integer).reverse ++ '.' :: fracStr)

/-- Break a character list at the first dot. -/
def splitAtDot : List Char → List Char × Option (List Char)
  | [] => ([], none)
  | c :: rest =>
    if c = '.' then ([], some rest)
    else
      let p := splitAtDot rest
      (c :: p.1, p.2)

/-- Interpret a decimal string (optionally containing one point) and re-scale
it by `10 ^ d`, recovering the underlying raw integer: the reading direction of
the humanization round-trip. -/
def parseDecScaled (s : String) (d : Nat) : Option Nat :=
  match splitAtDot s.toList with
  | (ip, none) => (digitsVal ip).map (fun i => i * 10 ^ d)
  | (ip, some fp) =>
    if fp.length ≤ d then
      match digitsVal ip, digitsVal fp with
      | some i, some f => some (i * 10 ^ d + f * 10 ^ (d - fp.length))
      | _, _ => none
    else none

/-! ### Digit-string lemmas -/

theorem digitVal_digitChar {m : Nat} (h : m < 10) :
    digitVal? (digitChar m) = some m := by
  interval_cases m <;> rfl

theorem digitChar_ne_dot {m : Nat} (h : m < 10) : digitChar m ≠ '.' := by
  interval_cases m <;> decide

theorem digitsValAux_append (acc : Nat) (l1 l2 : List Char) :
    digitsValAux acc (l1 ++ l2)
      = (digitsValAux acc l1).bind (fun a => digitsValAux a l2) := by
  induction l1 generalizing acc with
  | nil => rfl
  | cons c rest ih =>
    simp only [List.cons_append, digitsValAux]
    cases digitVal? c with
    | none => rfl
    | some d => exact ih _

theorem natDigitsRev_ne_nil (n : Nat) : natDigitsRev n ≠ [] := by
  rw [natDigitsRev]
  split <;> simp

theorem natDigitsRev_mem (n : Nat) :
    ∀ c ∈ natDigitsRev n, ∃ m, m < 10 ∧ c = digitChar m := by
  induction n using Nat.strong_induction_on with
  | _ n ih =>
    rw [natDigitsRev]
    split
    · next h =>
      intro c hc
      simp only [List.mem_singleton] at hc
      exact ⟨n, h, hc⟩
    · next h =>
      intro c hc
      simp only [List.mem_cons] at hc
      rcases hc with hc | hc
      · exact ⟨n % 10, Nat.mod_lt _ (by omega), hc⟩
      · exact ih (n / 10) (Nat.div_lt_self (by omega) (by omega)) c hc

theorem digitsValAux_natDigitsRev (n : Nat) :
    ∀ acc, digitsValAux acc (natDigitsRev n).reverse
      = some (acc * 10 ^ (natDigitsRev n).length + n) := by
  induction n using Nat.strong_induction_on with
  | _ n ih =>
    intro acc
    rw [natDigitsRev]
    split
    · next h =>
      simp [digitsValAux, digitVal_digitChar h]
    · next h =>
      have hlt : n / 10 < n := Nat.div_lt_self (by omega) (by omega)
      simp only [List.reverse_cons, List.length_cons]
      rw [digitsValAux_append, ih (n / 10) hlt acc]
      simp only [Option.bind_some, digitsValAux,
        digitVal_digitChar (Nat.mod_lt n (by omega : (0:Nat) < 10))]
      have hmod := Nat.div_add_mod n 10
      refine Eq.trans
        (b := some ((acc * 10 ^ (natDigitsRev (n / 10)).length + n / 10) * 10 + n % 10))
        rfl ?_
      congr 1
      calc (acc * 10 ^ (natDigitsRev (n / 10)).length + n / 10) * 10 + n % 10
          = acc * (10 ^ (natDigitsRev (n / 10)).length * 10)
            + (10 * (n / 10) + n % 10) := by ring
        _ = acc * 10 ^ ((natDigitsRev (n / 10)).length + 1) + n := by
            rw [← pow_succ, hmod]

theorem digitsVal_natDigitsRev (n : Nat) :
    digitsVal (natDigitsRev n).reverse = some n := by
  have hne : (natDigitsRev n).reverse ≠ [] := by
    simpa using natDigitsRev_ne_nil n
  rw [digitsVal, if_neg (by simpa [List.isEmpty_iff] using hne)]
  simpa using digitsValAux_natDigitsRev n 0

theorem length_natDigitsRev_le {n k : Nat} (hk : 1 ≤ k) (h : n < 10 ^ k) :
    (natDigitsRev n).length ≤ k := by
  induction n using Nat.strong_induction_on generalizing k with
  | _ n ih =>
    rw [natDigitsRev]
    split
    · next => simpa using hk
    · next hten =>
      have hk2 : 2 ≤ k := by
        by_contra hc
        have : k = 1 := by omega
        subst this
        simp at h
        omega
      have hdiv : n / 10 < 10 ^ (k - 1) := by
        have : n < 10 ^ (k - 1) * 10 := by
          have : 10 ^ (k - 1) * 10 = 10 ^ k := by
            have : k - 1 + 1 = k := by omega
            calc 10 ^ (k - 1) * 10 = 10 ^ (k - 1 + 1) := by ring
              _ = 10 ^ k := by rw [this]
          omega
        omega
      have := ih (n / 10) (Nat.div_lt_self (by omega) (by omega)) (by omega) hdiv
      simp only [List.length_cons]
      omega

theorem digitsValAux_zeros_left (k : Nat) (rest : List Char) :
    digitsValAux 0 (List.replicate k '0' ++ rest) = digitsValAux 0 rest := by
  induction k with
  | zero => rfl
  | succ k ih => simpa [List.replicate_succ, digitsValAux] using ih

theorem digitsValAux_zeros_right (acc t : Nat) :
    digitsValAux acc (List.replicate t '0') = some (acc * 10 ^ t) := by
  induction t generalizing acc with
  | zero => simp [digitsValAux]
  | succ t ih =>
    simp only [List.replicate_succ, digitsValAux]
    rw [show digitVal? '0' = some 0 from rfl]
    simp only [ih]
    congr 1
    ring

theorem rstripZeros_spec (cs : List Char) :
    cs = rstripZeros cs
      ++ List.replicate (cs.reverse.takeWhile (fun c => c == '0')).length '0' := by
  have hsplit := List.takeWhile_append_dropWhile (p := fun c => c == '0') (l := cs.reverse)
  have htake : cs.reverse.takeWhile (fun c => c == '0')
      = List.replicate (cs.reverse.takeWhile (fun c => c == '0')).length '0' := by
    apply List.eq_replicate_of_mem
    intro c hc
    have := List.mem_takeWhile_imp hc
    simpa using this
  calc cs = cs.reverse.reverse := by simp
    _ = (cs.reverse.dropWhile (fun c => c == '0')).reverse
          ++ (cs.reverse.takeWhile (fun c => c == '0')).reverse := by
        rw [← List.reverse_append, hsplit]
    _ = _ := by
        rw [rstripZeros, htake]
        simp

theorem mem_rstripZeros {c : Char} {cs : List Char} (h : c ∈ rstripZeros cs) :
    c ∈ cs := by
  rw [rstripZeros] at h
  rw [List.mem_reverse] at h
  have := (List.dropWhile_sublist (l := cs.reverse) (p := fun c => c == '0')).mem h
  simpa using this

theorem splitAtDot_no_dot {l : List Char} (h : '.' ∉ l) :
    splitAtDot l = (l, none) := by
  induction l with
  | nil => rfl
  | cons c rest ih =>
    have hc : c ≠ '.' := by
      intro hc; exact h (by simp [hc])
    have hrest : '.' ∉ rest := fun hr => h (by simp [hr])
    simp [splitAtDot, Ne.symm hc, ih hrest, hc]

theorem splitAtDot_append {l1 : List Char} (l2 : List Char) (h : '.' ∉ l1) :
    splitAtDot (l1 ++ '.' :: l2) = (l1, some l2) := by
  induction l1 with
  | nil => simp [splitAtDot]
  | cons c rest ih =>
    have hc : c ≠ '.' := by
      intro hc; exact h (by simp [hc])
    have hrest : '.' ∉ rest := fun hr => h (by simp [hr])
    simp [splitAtDot, hc, ih hrest]

theorem toList_mk (cs : List Char) : (String.mk cs).toList = cs := rfl

theorem dot_not_mem_natDigitsRev (n : Nat) : '.' ∉ (natDigitsRev n).reverse := by
  intro h
  rw [List.mem_reverse] at h
  obtain ⟨m, hm, hc⟩ := natDigitsRev_mem n '.' h
  exact digitChar_ne_dot hm hc.symm

theorem parseDecScaled_pyStrNat (n D : Nat) :
    parseDecScaled (pyStrNat n) D = some (n * 10 ^ D) := by
  rw [parseDecScaled, pyStrNat, toList_mk,
    splitAtDot_no_dot (dot_not_mem_natDigitsRev n)]
  simp [digitsVal_natDigitsRev]

/-- C9: for every non-negative integer `a` and every integer `d`, the string
produced by `humanize_amount(a, d)` is the raw decimal string of `a` when
`d <= 0`, and for `d >= 0` re-interpreting the produced string as a decimal
number scaled by `10^d` reconstructs `a` exactly: the integer part is
`a div 10^d`, the fractional part is the remainder left-padded to `d` digits
with trailing zeros trimmed, and no decimal point appears when the fractional
digits are all zero.  (app.py lines 116-123.) -/
theorem humanize_amount_roundtrip (a : Nat) (d : Int) :
    (d ≤ 0 → humanize_amount a d = pyStrNat a)
    ∧ (0 ≤ d → parseDecScaled (humanize_amount a d) d.toNat = some a) := by
  constructor
  · intro hle
    rw [humanize_amount, if_pos hle]
  · intro hge
    by_cases h0 : d ≤ 0
    · have hd0 : d = 0 := le_antisymm h0 hge
      subst hd0
      rw [humanize_amount, if_pos le_rfl]
      simpa using parseDecScaled_pyStrNat a 0
    · -- d > 0
      have hDpos : 1 ≤ d.toNat := by omega
      rw [humanize_amount, if_neg h0]
      set D := d.toNat with hDdef
      set scale : Nat := 10 ^ D with hscale
      set integer := a / scale with hint
      set frac := a % scale with hfrac
      set R := rjustZeros (natDigitsRev frac).reverse D with hR
      set S := rstripZeros R with hS
      have hscale_pos : 0 < scale := Nat.pos_pow_of_pos _ (by omega)
      have hfrac_lt : frac < 10 ^ D := Nat.mod_lt _ hscale_pos
      have hL : (natDigitsRev frac).reverse.length ≤ D := by
        rw [List.length_reverse]
        exact length_natDigitsRev_le hDpos hfrac_lt
      have hlenR : R.length = D := by
        rw [hR, rjustZeros, List.length_append, List.length_replicate]
        omega
      have hvalR : digitsValAux 0 R = some frac := by
        rw [hR, rjustZeros, List.length_reverse, digitsValAux_zeros_left]
        simpa using digitsValAux_natDigitsRev frac 0
      -- split R into its stripped part and the trailing zeros
      set t := (R.reverse.takeWhile (fun c => c == '0')).length with ht
      have hsp : R = S ++ List.replicate t '0' := by
        rw [hS, ht]
        exact rstripZeros_spec R
      have hlenS : S.length + t = D := by
        rw [← hlenR, hsp, List.length_append, List.length_replicate]
      obtain ⟨vS, hvS, hfs⟩ : ∃ vS, digitsValAux 0 S = some vS ∧ frac = vS * 10 ^ t := by
        rw [hsp, digitsValAux_append] at hvalR
        cases hcase : digitsValAux 0 S with
        | none => rw [hcase] at hvalR; simp at hvalR
        | some vS =>
          rw [hcase] at hvalR
          rw [Option.some_bind' (f := fun acc => digitsValAux acc (List.replicate t '0'))] at hvalR
          rw [digitsValAux_zeros_right] at hvalR
          exact ⟨vS, rfl, by injection hvalR with h; exact h.symm⟩
      have hkey : integer * 10 ^ D + frac = a := by
        rw [hint, hfrac, hscale, mul_comm]
        exact Nat.div_add_mod a (10 ^ D)
      by_cases hfse : S.isEmpty
      · -- all fractional digits were zero: no decimal point is emitted
        rw [if_pos hfse]
        have hS0 : S = [] := List.isEmpty_iff.mp hfse
        have hvS0 : vS = 0 := by
          rw [hS0] at hvS
          simp [digitsValAux] at hvS
          omega
        have hfrac0 : frac = 0 := by
          rw [hfs, hvS0, zero_mul]
        rw [parseDecScaled_pyStrNat]
        congr 1
        have h2 := hkey
        rw [hfrac0] at h2
        simpa using h2
      · rw [if_neg hfse]
        have hSne : S ≠ [] := fun h => hfse (by simp [h])
        rw [parseDecScaled, toList_mk,
          splitAtDot_append S (dot_not_mem_natDigitsRev integer)]
        have hlen_le : S.length ≤ D := by omega
        have hdv : digitsVal S = some vS := by
          rw [digitsVal, if_neg (by simpa [List.isEmpty_iff] using hSne)]
          exact hvS
        simp only [digitsVal_natDigitsRev, hdv, if_pos hlen_le]
        have hDt : D - S.length = t := by omega
        rw [hDt, ← hfs, hkey]

/-- Witness for `humanize_amount_roundtrip` at `d = -2` and `d = 8` (the
end-to-end figure of the spec, `55.66768803`). -/
theorem humanize_amount_roundtrip_check :
    ((-2 : Int) ≤ 0 ∧ humanize_amount 10 (-2) = pyStrNat 10)
    ∧ ((0 : Int) ≤ 8 ∧ parseDecScaled (humanize_amount 5566768803 8) 8
        = some 5566768803) :=
  ⟨⟨by decide, (humanize_amount_roundtrip 10 (-2)).1 (by decide)⟩,
   ⟨by decide, (humanize_amount_roundtrip 5566768803 8).2 (by decide)⟩⟩

/-! ## Retry loop of `fetch_blockberry_tbtc`
(alphafi_tbtc.py lines 102-128, identical loop in bucket_tbtc.py lines
104-129).

The network attempt is abstracted as an oracle `f : Nat → Except String GV`
giving the outcome of each attempt; `time.sleep` is recorded symbolically as
the list of slept durations (in seconds).  The default of the
`BLOCKBERRY_RETRIES` environment variable is 3. -/

/-- Seconds slept after the failed attempt number `attempt`:
`min(2 ** attempt, 3)`. -/
def retrySleep (attempt : Nat) : Nat := min (2 ^ attempt) 3

/-- The `for attempt in range(retries + 1)` loop: `attempt` is the current
attempt index, `rem` the number of retries still allowed after it.  Returns
(number of attempts performed, sleeps between consecutive attempts, result).
The final `raise RuntimeError(...)` is modelled by propagating the last
attempt's error. -/
def fetchLoop (f : Nat → Except String GV) : Nat → Nat → Nat × List Nat × Except String GV
  | attempt, 0 =>
    (1, [], match f attempt with
            | .ok v => .ok v
            | .error e => .error e)
  | attempt, rem + 1 =>
    match f attempt with
    | .ok v => (1, [], .ok v)
    | .error _ =>
      let r := fetchLoop f (attempt + 1) rem
      (r.1 + 1, retrySleep attempt :: r.2.1, r.2.2)

/-- `fetch_blockberry_tbtc` with retry count `R` and per-attempt outcomes `f`. -/
def fetch_blockberry_tbtc (f : Nat → Except String GV) (R : Nat) :
    Nat × List Nat × Except String GV :=
  fetchLoop f 0 R

theorem fetchLoop_all_fail (f : Nat → Except String GV)
    (base rem : Nat) (hfail : ∀ i, i ≤ base + rem → (f i).toOption = none) :
    fetchLoop f base rem
      = (rem + 1, (List.range rem).map (fun i => retrySleep (base + i)),
         f (base + rem)) := by
  induction rem generalizing base with
  | zero =>
    have h0 := hfail base (by omega)
    cases hf : f base with
    | ok v => rw [hf] at h0; simp [Except.toOption] at h0
    | error e => simp [fetchLoop, hf]
  | succ rem ih =>
    have h0 := hfail base (by omega)
    cases hf : f base with
    | ok v => rw [hf] at h0; simp [Except.toOption] at h0
    | error e =>
      have hrec := ih (base + 1) (fun i hi => hfail i (by omega))
      simp only [fetchLoop, hf, hrec]
      have h2 : List.map (fun i => retrySleep (base + i)) (List.range (rem + 1))
          = retrySleep base :: List.map (fun i => retrySleep (base + 1 + i)) (List.range rem) := by
        rw [List.range_succ_eq_map, List.map_cons, List.map_map]
        have hcomp : ((fun i => retrySleep (base + i)) ∘ Nat.succ)
            = (fun i => retrySleep (base + 1 + i)) := by
          funext i
          simp only [Function.comp_apply]
          congr 1
          omega
        rw [hcomp]
        simp
      rw [h2, show base + 1 + rem = base + (rem + 1) by omega]

/-- C8: a source whose every attempt fails is attempted exactly `R + 1`
times, with a sleep of `min(2 ** attempt, 3)` seconds after each failed
attempt except the last, and the `(R+1)`-th failure ends the loop with the
final failure (raised as `RuntimeError` in the source).
(alphafi_tbtc.py lines 117-128, bucket_tbtc.py lines 118-129; the retry
count defaults to `BLOCKBERRY_RETRIES = 3`.) -/
theorem fetch_blockberry_retry_bound (f : Nat → Except String GV) (R : Nat)
    (hfail : ∀ i, i ≤ R → (f i).toOption = none) :
    (fetch_blockberry_tbtc f R).1 = R + 1
    ∧ (fetch_blockberry_tbtc f R).2.1 = (List.range R).map retrySleep
    ∧ (fetch_blockberry_tbtc f R).2.2 = f R := by
  have h := fetchLoop_all_fail f 0 R (by simpa using hfail)
  rw [fetch_blockberry_tbtc, h]
  refine ⟨rfl, by simp, by rw [Nat.zero_add]⟩

/-- Witness for `fetch_blockberry_retry_bound`: with the default retry count
3 and an always-failing fetch, exactly 4 attempts happen and the sleeps are
1, 2 and 3 seconds. -/
theorem fetch_blockberry_retry_bound_check :
    (∀ i, i ≤ 3 → ((fun _ => (Except.error "boom" : Except String GV)) i).toOption = none)
    ∧ (fetch_blockberry_tbtc (fun _ => .error "boom") 3).1 = 4
    ∧ (fetch_blockberry_tbtc (fun _ => .error "boom") 3).2.1 = [1, 2, 3] := by
  have h := fetch_blockberry_retry_bound (fun _ => .error "boom") 3
    (fun i _ => rfl)
  refine ⟨fun i _ => rfl, h.1, ?_⟩
  rw [h.2.1]
  rfl

/-! ## Container pagination walker
`enumerate_dynamic_objects` (alphafi_tbtc.py lines 131-151, identical copy in
bucket_tbtc.py lines 132-152) and `enumerate_markets` (alphalend_tbtc.py
lines 204-229, same loop with a fixed parent).

The `suix_getDynamicFields` server is abstracted as the sequence of page
responses it would return, in cursor order (the walker always threads
`page.get("nextCursor")` into the next request, so the k-th loop iteration
consumes the k-th element); a page response is either a `Page` or a raised
`SuiRPCError`.  The `suix_getDynamicFieldObject` call is the oracle
`resolve : GV → Except Unit GV` from a dynamic-field name to the raw
response, `Except.error` meaning a raised `SuiRPCError`. -/

/-- One `suix_getDynamicFields` result:
`{data: [...], nextCursor: ..., hasNextPage: ...}`. -/
structure Page where
  data : List GV
  nextCursor : Option String
  hasNextPage : Bool

/-- The body of the `for entry in data` loop: returns the record appended to
`results`, or `none` when the entry is skipped (name missing or None,
`SuiRPCError` raised by the resolve call, or falsy resolved object). -/
def resolveEntry (resolve : GV → Except Unit GV) (entry : GV) : Option (GV × GV) :=
  match GV.pyVar entry "name" with
  | none => none
  | some name =>
    match resolve name with
    | .error _ => none
    | .ok dfo =>
      let objv := GV.pyOr (GV.pyGetD (GV.pyOr dfo (GV.obj [])) "data" GV.null) (GV.obj [])
      if GV.truthy objv then some (name, objv) else none

/-- The `while True` pagination loop, consuming server pages in cursor order.
Returns `(number of page-listing requests, accumulated results)`, or the
propagated `SuiRPCError` when a page-listing call fails. -/
def enumerate_dynamic_objects (resolve : GV → Except Unit GV) :
    List (Except Unit Page) → Except Unit (Nat × List (GV × GV))
  | [] => .ok (0, [])
  | .error e :: _ => .error e
  | .ok p :: rest =>
    let entries := p.data.filterMap (resolveEntry resolve)
    if p.hasNextPage then
      match enumerate_dynamic_objects resolve rest with
      | .error e => .error e
      | .ok (n, es) => .ok (n + 1, entries ++ es)
    else .ok (1, entries)

theorem enumerate_cons_ok (resolve : GV → Except Unit GV) (p : Page)
    (rest : List (Except Unit Page)) :
    enumerate_dynamic_objects resolve (.ok p :: rest)
      = (if p.hasNextPage then
          match enumerate_dynamic_objects resolve rest with
          | .error e => .error e
          | .ok (n, es) => .ok (n + 1, p.data.filterMap (resolveEntry resolve) ++ es)
        else .ok (1, p.data.filterMap (resolveEntry resolve))) := rfl

theorem length_filterMap_of_isSome {α β : Type} (f : α → Option β) (l : List α)
    (h : ∀ e ∈ l, (f e).isSome) : (l.filterMap f).length = l.length := by
  induction l with
  | nil => rfl
  | cons a tl ih =>
    cases hf : f a with
    | none =>
      have := h a (by simp)
      rw [hf] at this
      simp at this
    | some b =>
      simp only [List.filterMap_cons, hf, List.length_cons]
      rw [ih (fun e he => h e (by simp [he]))]

/-- C1: when the server serves pages `ps` whose first `N-1` pages report
`hasNextPage = true` and whose `N`-th page reports `false`, the walker issues
exactly `N = ps.length` page-listing requests in cursor order — any pages the
server could serve afterwards (`rest`) are never requested — and returns the
resolved entries of all pages' children in order; under the assumption that
every child descriptor resolves fully (non-null `name`, successful resolve
call, truthy `data`), it returns exactly one entry per child descriptor of
every page.  (alphafi_tbtc.py lines 131-151; alphalend_tbtc.py lines 204-229.) -/
theorem enumerate_pagination_complete (resolve : GV → Except Unit GV)
    (ps : List Page) (rest : List (Except Unit Page)) (hne : ps ≠ [])
    (hmid : ∀ i, i + 1 < ps.length →
      (ps.getD i ⟨[], none, false⟩).hasNextPage = true)
    (hlast : (ps.getD (ps.length - 1) ⟨[], none, false⟩).hasNextPage = false)
    (hres : ∀ e ∈ ps.flatMap Page.data, (resolveEntry resolve e).isSome) :
    enumerate_dynamic_objects resolve (ps.map Except.ok ++ rest)
      = .ok (ps.length, (ps.flatMap Page.data).filterMap (resolveEntry resolve))
    ∧ ((ps.flatMap Page.data).filterMap (resolveEntry resolve)).length
      = (ps.flatMap Page.data).length := by
  constructor
  · clear hres
    induction ps with
    | nil => exact absurd rfl hne
    | cons p tl ih =>
      cases tl with
      | nil =>
        have h0 : p.hasNextPage = false := by simpa using hlast
        simp [enumerate_dynamic_objects, h0]
      | cons q tl' =>
        have h0 : p.hasNextPage = true := by
          have := hmid 0 (by simp)
          simpa using this
        have hrec := ih (by simp)
          (fun i hi => by
            have hh := hmid (i + 1)
              (by simp only [List.length_cons] at hi ⊢; omega)
            simpa [List.getD_cons_succ] using hh)
          (by
            have hh := hlast
            simp only [List.length_cons, Nat.add_sub_cancel] at hh ⊢
            rw [List.getD_cons_succ] at hh
            exact hh)
        rw [List.map_cons, List.cons_append, enumerate_cons_ok, hrec]
        simp [h0, List.flatMap_cons, List.filterMap_append]
  · exact length_filterMap_of_isSome _ _ hres

/-- Witness for `enumerate_pagination_complete`: two pages (the first with
`hasNextPage=true`, the second `false`) each holding one resolvable child;
the walker performs exactly 2 requests and returns both children, ignoring a
third page the server could still serve. -/
theorem enumerate_pagination_complete_check :
    enumerate_dynamic_objects
        (fun _ => .ok (GV.obj [("data", GV.obj [("objectId", GV.str "0xabc")])]))
        ([Page.mk [GV.obj [("name", GV.str "k1")]] (some "c1") true,
          Page.mk [GV.obj [("name", GV.str "k2")]] none false].map Except.ok
          ++ [Except.error ()])
      = .ok (2, [(GV.str "k1", GV.obj [("objectId", GV.str "0xabc")]),
                 (GV.str "k2", GV.obj [("objectId", GV.str "0xabc")])]) := by
  have h := enumerate_pagination_complete
    (fun _ => .ok (GV.obj [("data", GV.obj [("objectId", GV.str "0xabc")])]))
    [Page.mk [GV.obj [("name", GV.str "k1")]] (some "c1") true,
     Page.mk [GV.obj [("name", GV.str "k2")]] none false]
    [Except.error ()]
    (by simp)
    (fun i hi => by
      have h0 : i = 0 := by simp at hi; omega
      subst h0
      rfl)
    (by rfl)
    (by
      intro e he
      simp only [List.flatMap_cons, List.flatMap_nil, List.append_nil,
        List.mem_append, List.mem_singleton] at he
      rcases he with he | he <;> (subst he; rfl))
  rw [h.1]
  rfl

/-- C5: failure containment in the walker.  (a) A child whose
`suix_getDynamicFieldObject` call raises `SuiRPCError` is skipped —
`resolveEntry` yields nothing for it while other children are unaffected;
(b) processing of a successfully listed page always proceeds to the
remaining pages, whatever the child resolutions did; (c) a failing
page-listing call propagates the error to the caller, aborting the
container's enumeration.  (bucket_tbtc.py lines 132-152; alphafi_tbtc.py
lines 131-151.) -/
theorem enumerate_failure_policy (resolve : GV → Except Unit GV) :
    (∀ e name, GV.pyVar e "name" = some name → resolve name = .error () →
      resolveEntry resolve e = none)
    ∧ (∀ p rest, p.hasNextPage = true →
        enumerate_dynamic_objects resolve (.ok p :: rest)
          = (enumerate_dynamic_objects resolve rest).map
              (fun r => (r.1 + 1, p.data.filterMap (resolveEntry resolve) ++ r.2)))
    ∧ (∀ rest, enumerate_dynamic_objects resolve (.error () :: rest) = .error ()) := by
  refine ⟨?_, ?_, ?_⟩
  · intro e name hname herr
    rw [resolveEntry, hname]
    simp [herr]
  · intro p rest hnext
    rw [enumerate_dynamic_objects]
    simp only [hnext, if_true]
    cases enumerate_dynamic_objects resolve rest with
    | error e => rfl
    | ok r => cases r; rfl
  · intro rest
    rfl

/-- Witness for `enumerate_failure_policy`: a child whose resolve call fails
is dropped, a listed page continues to the next pages, and an error page
aborts. -/
theorem enumerate_failure_policy_check :
    resolveEntry (fun _ => .error ()) (GV.obj [("name", GV.str "k")]) = none
    ∧ enumerate_dynamic_objects (fun _ => .error ())
        (.ok (Page.mk [GV.obj [("name", GV.str "k")]] none true) :: [.error ()])
        = .error ()
    ∧ enumerate_dynamic_objects (fun _ => .error ()) [.error ()] = .error () := by
  have h := enumerate_failure_policy (fun _ => .error ())
  refine ⟨h.1 (GV.obj [("name", GV.str "k")]) (GV.str "k") rfl rfl, ?_, h.2.2 []⟩
  rw [h.2.1 (Page.mk [GV.obj [("name", GV.str "k")]] none true) [.error ()] rfl]
  rw [h.2.2 []]
  rfl

/-! ## Type-marker matchers
`find_coin_type` (alphafi_tbtc.py lines 183-206) and
`find_tbtc_in_object_content` (alphalend_tbtc.py lines 232-261). -/

/-- The TBTC coin type constant shared by all scripts. -/
def TBTC_COIN_TYPE : String :=
  "0x77045f1b9f811a7a8fb9ebd085b5b0c55c5cb0d1520ff55f7037f89b5da9f5f1::TBTC::TBTC"

/-- The marker's distinguishing suffix (its final two path segments). -/
def TBTC_SUFFIX : String := "::TBTC::TBTC"

/-- `content.get("type") or content.get("dataType")`. -/
def typeTagOr (c : GV) : Option GV :=
  match GV.pyGet c "type" with
  | some v => if GV.truthy v then some v else GV.pyGet c "dataType"
  | none => GV.pyGet c "dataType"

/-- `isinstance(t, str) and TBTC_COIN_TYPE in t` for the type tag of `c`. -/
def topTypeMatch (c : GV) : Bool :=
  match typeTagOr c with
  | some (.str s) => strContainsStr s TBTC_COIN_TYPE
  | _ => false

/-- `name.startswith("0x")`. -/
def strStartsWith0x (nm : String) : Bool :=
  "0x".toList.isPrefixOf nm.toList

/-- `("0x" + name) if not name.startswith("0x") else name`. -/
def normalizeName (nm : String) : String :=
  if strStartsWith0x nm then nm else "0x" ++ nm

mutual
/-- The inner `walk` of `find_coin_type`: on a dict, the `name` field is
examined first (matching there short-circuits before any descent), then the
values are visited in insertion order; list elements are visited in order;
a string leaf matches when it contains the full coin type.  The loop's
`if ct: return ct` tests Python truthiness, so an empty string result would
be skipped — mirrored by the `String.isEmpty` test. -/
def fcWalk : GV → Option String
  | .obj fs =>
    (match GV.lookupFs fs "name" with
     | some (.str nm) =>
       if strContainsStr nm TBTC_SUFFIX then some (normalizeName nm)
       else fcWalkVals fs
     | _ => fcWalkVals fs)
  | .arr xs => fcWalkList xs
  | .str s => if strContainsStr s TBTC_COIN_TYPE then some TBTC_COIN_TYPE else none
  | _ => none
termination_by d => sizeOf d

/-- `for v in d.values(): ct = walk(v); if ct: return ct`. -/
def fcWalkVals : List (String × GV) → Option String
  | [] => none
  | (_, v) :: rest =>
    match fcWalk v with
    | some s => if s = "" then fcWalkVals rest else some s
    | none => fcWalkVals rest
termination_by l => sizeOf l

/-- `for i in d: ct = walk(i); if ct: return ct`. -/
def fcWalkList : List GV → Option String
  | [] => none
  | v :: rest =>
    match fcWalk v with
    | some s => if s = "" then fcWalkList rest else some s
    | none => fcWalkList rest
termination_by l => sizeOf l
end

/-- `find_coin_type(content)` from alphafi_tbtc.py: the top-level type tag is
checked for the full marker, then the recursive walk runs. -/
def find_coin_type (c : GV) : Option String :=
  if topTypeMatch c then some TBTC_COIN_TYPE else fcWalk c

mutual
/-- Exhaustive collector of every match the `find_coin_type` walk could
report, in the walk's own pre-order: the specification of its traversal
order. -/
def fcMatches : GV → List String
  | .obj fs =>
    (match GV.lookupFs fs "name" with
     | some (.str nm) =>
       if strContainsStr nm TBTC_SUFFIX then normalizeName nm :: fcMatchesVals fs
       else fcMatchesVals fs
     | _ => fcMatchesVals fs)
  | .arr xs => fcMatchesList xs
  | .str s => if strContainsStr s TBTC_COIN_TYPE then [TBTC_COIN_TYPE] else []
  | _ => []
termination_by d => sizeOf d

def fcMatchesVals : List (String × GV) → List String
  | [] => []
  | (_, v) :: rest => fcMatches v ++ fcMatchesVals rest
termination_by l => sizeOf l

def fcMatchesList : List GV → List String
  | [] => []
  | v :: rest => fcMatches v ++ fcMatchesList rest
termination_by l => sizeOf l
end

/-- All matches of `find_coin_type` including the top-level type-tag check. -/
def fcAllMatches (c : GV) : List String :=
  (if topTypeMatch c then [TBTC_COIN_TYPE] else []) ++ fcMatches c

theorem GV.sizeOf_lookupFs {fs : List (String × GV)} {k : String} {v : GV}
    (h : GV.lookupFs fs k = some v) : sizeOf v < sizeOf fs := by
  induction fs with
  | nil => simp [GV.lookupFs] at h
  | cons kv rest ih =>
    obtain ⟨k', v'⟩ := kv
    rw [GV.lookupFs] at h
    split at h
    · injection h with h
      subst h
      simp only [List.cons.sizeOf_spec, Prod.mk.sizeOf_spec]
      omega
    · have := ih h
      simp only [List.cons.sizeOf_spec]
      omega

theorem GV.sizeOf_pyGet {c : GV} {k : String} {v : GV}
    (h : GV.pyGet c k = some v) : sizeOf v < sizeOf c := by
  cases c
  case obj fs =>
    simp only [GV.pyGet] at h
    have := GV.sizeOf_lookupFs h
    simp only [GV.obj.sizeOf_spec]
    omega
  all_goals simp [GV.pyGet] at h

/-- `any(isinstance(v, str) and TBTC_COIN_TYPE in v for v in fields.values())`
— the first inner loop of `find_tbtc_in_object_content`. -/
def strFieldHit (ffs : List (String × GV)) : Bool :=
  ffs.any (fun kv =>
    match kv.2 with
    | .str s => strContainsStr s TBTC_COIN_TYPE
    | _ => false)

mutual
/-- `find_tbtc_in_object_content(content)` from alphalend_tbtc.py: the type
tag of the current node is checked first; then the direct string fields under
`content["fields"]`; then dict (and dicts-inside-list) field values are
recursed into, returning the first hit (`if hit is not None: return hit`). -/
def find_tbtc_in_object_content (c : GV) : Option GV :=
  if topTypeMatch c then some c
  else
    match hf : GV.pyGet c "fields" with
    | some (.obj ffs) =>
      if strFieldHit ffs then some c
      else
        have : sizeOf ffs < sizeOf c := by
          have h1 := GV.sizeOf_pyGet hf
          simp only [GV.obj.sizeOf_spec] at h1
          omega
        ftVals ffs
    | _ => none
termination_by sizeOf c

/-- Second inner loop: `for v in fields.values()`. -/
def ftVals : List (String × GV) → Option GV
  | [] => none
  | (_, v) :: rest =>
    match v with
    | .obj fs =>
      (match find_tbtc_in_object_content (.obj fs) with
       | some hit => some hit
       | none => ftVals rest)
    | .arr xs =>
      (match ftList xs with
       | some hit => some hit
       | none => ftVals rest)
    | _ => ftVals rest
termination_by l => sizeOf l

/-- `for i in v: if isinstance(i, dict): ...`. -/
def ftList : List GV → Option GV
  | [] => none
  | i :: rest =>
    match i with
    | .obj fs =>
      (match find_tbtc_in_object_content (.obj fs) with
       | some hit => some hit
       | none => ftList rest)
    | _ => ftList rest
termination_by l => sizeOf l
end

mutual
/-- Exhaustive collector of every subtree `find_tbtc_in_object_content`
could return, in the function's own pre-order. -/
def ftMatches (c : GV) : List GV :=
  (if topTypeMatch c then [c] else [])
  ++ (match hf : GV.pyGet c "fields" with
      | some (.obj ffs) =>
        have : sizeOf ffs < sizeOf c := by
          have h1 := GV.sizeOf_pyGet hf
          simp only [GV.obj.sizeOf_spec] at h1
          omega
        (if strFieldHit ffs then [c] else []) ++ ftMatchesVals ffs
      | _ => [])
termination_by sizeOf c

def ftMatchesVals : List (String × GV) → List GV
  | [] => []
  | (_, v) :: rest =>
    (match v with
     | .obj fs => ftMatches (.obj fs)
     | .arr xs => ftMatchesList xs
     | _ => []) ++ ftMatchesVals rest
termination_by l => sizeOf l

def ftMatchesList : List GV → List GV
  | [] => []
  | i :: rest =>
    (match i with
     | .obj fs => ftMatches (.obj fs)
     | _ => []) ++ ftMatchesList rest
termination_by l => sizeOf l
end

/-! ### First-match characterization of the matchers -/

theorem normalizeName_ne_empty {nm : String}
    (h : strContainsStr nm TBTC_SUFFIX = true) : normalizeName nm ≠ "" := by
  rw [normalizeName]
  split
  · intro he
    subst he
    exact absurd h (by decide)
  · intro he
    have hlen := congrArg String.length he
    rw [String.length_append] at hlen
    have h2 : ("0x" : String).length = 2 := by decide
    rw [h2] at hlen
    simp at hlen

theorem mem_fcMatchesVals {s : String} {fs : List (String × GV)}
    (h : s ∈ fcMatchesVals fs) : ∃ kv ∈ fs, s ∈ fcMatches kv.2 := by
  induction fs with
  | nil => simp [fcMatchesVals] at h
  | cons kv rest ih =>
    obtain ⟨k, v⟩ := kv
    rw [fcMatchesVals] at h
    rcases List.mem_append.mp h with h | h
    · exact ⟨(k, v), by simp, h⟩
    · obtain ⟨kv', hmem, hs⟩ := ih h
      exact ⟨kv', by simp [hmem], hs⟩

theorem mem_fcMatchesList {s : String} {xs : List GV}
    (h : s ∈ fcMatchesList xs) : ∃ x ∈ xs, s ∈ fcMatches x := by
  induction xs with
  | nil => simp [fcMatchesList] at h
  | cons v rest ih =>
    rw [fcMatchesList] at h
    rcases List.mem_append.mp h with h | h
    · exact ⟨v, by simp, h⟩
    · obtain ⟨x, hmem, hs⟩ := ih h
      exact ⟨x, by simp [hmem], hs⟩

theorem fcMatches_ne_empty : ∀ d : GV, ∀ s ∈ fcMatches d, s ≠ "" := by
  refine GV.deepInduction _ ?_ ?_ ?_ ?_ ?_ ?_
  · simp [fcMatches]
  · intro b; simp [fcMatches]
  · intro n; simp [fcMatches]
  · intro s
    intro s' hs'
    rw [fcMatches] at hs'
    split at hs'
    · simp only [List.mem_singleton] at hs'
      subst hs'
      decide
    · simp at hs'
  · intro xs ih s hs
    rw [fcMatches] at hs
    obtain ⟨x, hx, hsx⟩ := mem_fcMatchesList hs
    exact ih x hx s hsx
  · intro fs ih s hs
    rw [fcMatches] at hs
    have hvals : s ∈ fcMatchesVals fs → s ≠ "" := fun hv => by
      obtain ⟨kv, hkv, hskv⟩ := mem_fcMatchesVals hv
      exact ih kv hkv s hskv
    split at hs
    · next nm heq =>
      split at hs
      · next hc =>
        rcases List.mem_cons.mp hs with hs | hs
        · subst hs
          exact normalizeName_ne_empty hc
        · exact hvals hs
      · exact hvals hs
    · exact hvals hs

theorem fcWalkList_eq (xs : List GV)
    (ih : ∀ x ∈ xs, fcWalk x = (fcMatches x).head?) :
    fcWalkList xs = (fcMatchesList xs).head? := by
  induction xs with
  | nil => simp [fcWalkList, fcMatchesList]
  | cons v rest ihr =>
    rw [fcWalkList, fcMatchesList, ih v (by simp)]
    cases hm : fcMatches v with
    | nil =>
      simp only [List.head?_nil, List.nil_append]
      exact ihr (fun x hx => ih x (by simp [hx]))
    | cons s tl =>
      have hne : s ≠ "" := fcMatches_ne_empty v s (by simp [hm])
      simp [hne, ihr]

theorem fcWalkVals_eq (fs : List (String × GV))
    (ih : ∀ kv ∈ fs, fcWalk kv.2 = (fcMatches kv.2).head?) :
    fcWalkVals fs = (fcMatchesVals fs).head? := by
  induction fs with
  | nil => simp [fcWalkVals, fcMatchesVals]
  | cons kv rest ihr =>
    obtain ⟨k, v⟩ := kv
    rw [fcWalkVals, fcMatchesVals, ih (k, v) (by simp)]
    cases hm : fcMatches v with
    | nil =>
      simp only [List.head?_nil, List.nil_append]
      exact ihr (fun kv hkv => ih kv (by simp [hkv]))
    | cons s tl =>
      have hne : s ≠ "" := fcMatches_ne_empty v s (by simp [hm])
      simp [hne, ihr]

theorem fcWalk_eq_head : ∀ d : GV, fcWalk d = (fcMatches d).head? := by
  refine GV.deepInduction _ ?_ ?_ ?_ ?_ ?_ ?_
  · simp [fcWalk, fcMatches]
  · intro b; simp [fcWalk, fcMatches]
  · intro n; simp [fcWalk, fcMatches]
  · intro s
    rw [fcWalk, fcMatches]
    by_cases hc : strContainsStr s TBTC_COIN_TYPE = true <;> simp [hc]
  · intro xs ih
    rw [fcWalk, fcMatches]
    exact fcWalkList_eq xs ih
  · intro fs ih
    have hv := fcWalkVals_eq fs ih
    rw [fcWalk, fcMatches]
    cases hl : GV.lookupFs fs "name" with
    | none => exact hv
    | some nv =>
      cases nv with
      | str nm =>
        by_cases hc : strContainsStr nm TBTC_SUFFIX = true
        · simp [hc]
        · simp only [hc, if_false]
          exact hv
      | null => exact hv
      | bool b => exact hv
      | num n => exact hv
      | arr l => exact hv
      | obj l => exact hv

theorem GV.lookupFs_mem {fs : List (String × GV)} {k : String} {v : GV}
    (h : GV.lookupFs fs k = some v) : ∃ k', (k', v) ∈ fs := by
  induction fs with
  | nil => simp [GV.lookupFs] at h
  | cons kv rest ih =>
    obtain ⟨k0, v0⟩ := kv
    rw [GV.lookupFs] at h
    split at h
    · injection h with h
      subst h
      exact ⟨k0, by simp⟩
    · obtain ⟨k', hk'⟩ := ih h
      exact ⟨k', by simp [hk']⟩

theorem ftList_eq (xs : List GV)
    (ih : ∀ x ∈ xs, find_tbtc_in_object_content x = (ftMatches x).head?) :
    ftList xs = (ftMatchesList xs).head? := by
  induction xs with
  | nil => simp [ftList, ftMatchesList]
  | cons i rest ihr =>
    have hrest := ihr (fun x hx => ih x (by simp [hx]))
    cases i with
    | obj fs =>
      simp only [ftList, ftMatchesList]
      rw [ih (.obj fs) (by simp)]
      cases hm : ftMatches (.obj fs) with
      | nil => simpa using hrest
      | cons h tl => simp
    | null => simpa [ftList, ftMatchesList] using hrest
    | bool b => simpa [ftList, ftMatchesList] using hrest
    | num n => simpa [ftList, ftMatchesList] using hrest
    | str s => simpa [ftList, ftMatchesList] using hrest
    | arr ys => simpa [ftList, ftMatchesList] using hrest

theorem ftVals_eq (ffs : List (String × GV))
    (ih1 : ∀ kv ∈ ffs, find_tbtc_in_object_content (Prod.snd kv)
      = (ftMatches (Prod.snd kv)).head?)
    (ih2 : ∀ kv ∈ ffs, ∀ xs, Prod.snd kv = GV.arr xs →
      ftList xs = (ftMatchesList xs).head?) :
    ftVals ffs = (ftMatchesVals ffs).head? := by
  induction ffs with
  | nil => simp [ftVals, ftMatchesVals]
  | cons kv rest ihr =>
    obtain ⟨k, v⟩ := kv
    have hrest := ihr (fun kv hkv => ih1 kv (by simp [hkv]))
      (fun kv hkv => ih2 kv (by simp [hkv]))
    cases v with
    | obj fs =>
      simp only [ftVals, ftMatchesVals]
      rw [ih1 (k, .obj fs) (by simp)]
      cases hm : ftMatches (.obj fs) with
      | nil => simpa using hrest
      | cons h tl => simp
    | arr xs =>
      simp only [ftVals, ftMatchesVals]
      rw [ih2 (k, .arr xs) (by simp) xs rfl]
      cases hm : ftMatchesList xs with
      | nil => simpa using hrest
      | cons h tl => simp
    | null => simpa [ftVals, ftMatchesVals] using hrest
    | bool b => simpa [ftVals, ftMatchesVals] using hrest
    | num n => simpa [ftVals, ftMatchesVals] using hrest
    | str s => simpa [ftVals, ftMatchesVals] using hrest

theorem ft_eq_head_all : ∀ d : GV,
    (find_tbtc_in_object_content d = (ftMatches d).head?)
    ∧ (∀ ffs, d = GV.obj ffs → ftVals ffs = (ftMatchesVals ffs).head?)
    ∧ (∀ xs, d = GV.arr xs → ftList xs = (ftMatchesList xs).head?) := by
  refine GV.deepInduction _ ?_ ?_ ?_ ?_ ?_ ?_
  · refine ⟨?_, ?_, ?_⟩
    · simp [find_tbtc_in_object_content, ftMatches, topTypeMatch, typeTagOr,
        GV.pyGet]
    · intro ffs h; exact absurd h (by simp)
    · intro xs h; exact absurd h (by simp)
  · intro b
    refine ⟨?_, ?_, ?_⟩
    · simp [find_tbtc_in_object_content, ftMatches, topTypeMatch, typeTagOr,
        GV.pyGet]
    · intro ffs h; exact absurd h (by simp)
    · intro xs h; exact absurd h (by simp)
  · intro n
    refine ⟨?_, ?_, ?_⟩
    · simp [find_tbtc_in_object_content, ftMatches, topTypeMatch, typeTagOr,
        GV.pyGet]
    · intro ffs h; exact absurd h (by simp)
    · intro xs h; exact absurd h (by simp)
  · intro s
    refine ⟨?_, ?_, ?_⟩
    · simp [find_tbtc_in_object_content, ftMatches, topTypeMatch, typeTagOr,
        GV.pyGet]
    · intro ffs h; exact absurd h (by simp)
    · intro xs h; exact absurd h (by simp)
  · intro xs ih
    refine ⟨?_, ?_, ?_⟩
    · simp [find_tbtc_in_object_content, ftMatches, topTypeMatch, typeTagOr,
        GV.pyGet]
    · intro ffs h; exact absurd h (by simp)
    · intro ys h
      injection h with h
      subst h
      exact ftList_eq xs (fun x hx => (ih x hx).1)
  · intro fs ih
    have hvals : ftVals fs = (ftMatchesVals fs).head? :=
      ftVals_eq fs (fun kv hkv => (ih kv hkv).1) (fun kv hkv => (ih kv hkv).2.2)
    refine ⟨?_, fun ffs h => ?_, fun xs h => absurd h (by simp)⟩
    · rw [find_tbtc_in_object_content, ftMatches]
      by_cases ht : topTypeMatch (GV.obj fs) = true
      · simp [ht]
      · simp only [ht, Bool.false_eq_true, if_false, List.nil_append]
        cases hf : GV.pyGet (GV.obj fs) "fields" with
        | none => simp
        | some fv =>
          cases fv with
          | obj ffs =>
            obtain ⟨k', hk'⟩ := GV.lookupFs_mem (show GV.lookupFs fs "fields"
              = some (GV.obj ffs) by simpa [GV.pyGet] using hf)
            have hsub := (ih (k', GV.obj ffs) hk').2.1 ffs rfl
            by_cases hh : strFieldHit ffs = true
            · simp [hh]
            · simp [hh, hsub]
          | null => simp
          | bool b => simp
          | num n => simp
          | str s => simp
          | arr ys => simp
    · injection h with h
      subst h
      exact hvals

/-- C2: first-match semantics of the matchers.  `fcAllMatches` /
`ftMatches` list, in the functions' own depth-first pre-order (each node's
type-identifying fields before its children, children in insertion/element
order), every node or coin-type string at which the source could report a
match; the matchers return exactly the head of that list — so they return
the first match in traversal order and stop descending once a match is
found — and return `none` (no error) when the marker occurs nowhere in the
tree.  (alphafi_tbtc.py lines 183-206; alphalend_tbtc.py lines 232-261.) -/
theorem matcher_first_match (c : GV) :
    find_coin_type c = (fcAllMatches c).head?
    ∧ find_tbtc_in_object_content c = (ftMatches c).head?
    ∧ (fcAllMatches c = [] → find_coin_type c = none)
    ∧ (ftMatches c = [] → find_tbtc_in_object_content c = none) := by
  have h1 : find_coin_type c = (fcAllMatches c).head? := by
    rw [find_coin_type, fcAllMatches]
    by_cases ht : topTypeMatch c = true
    · simp [ht]
    · simp [ht, fcWalk_eq_head c]
  have h2 := (ft_eq_head_all c).1
  exact ⟨h1, h2, fun he => by rw [h1, he]; rfl, fun he => by rw [h2, he]; rfl⟩

/-- Witness for `matcher_first_match`: a tree without any occurrence of the
marker yields empty match lists and the no-match result `none` from both
matchers. -/
theorem matcher_first_match_check :
    fcAllMatches (GV.obj [("foo", GV.num 1)]) = []
    ∧ find_coin_type (GV.obj [("foo", GV.num 1)]) = none
    ∧ ftMatches (GV.obj [("foo", GV.num 1)]) = []
    ∧ find_tbtc_in_object_content (GV.obj [("foo", GV.num 1)]) = none := by
  have h := matcher_first_match (GV.obj [("foo", GV.num 1)])
  have hfc : fcAllMatches (GV.obj [("foo", GV.num 1)]) = [] := by
    simp [fcAllMatches, topTypeMatch, typeTagOr, GV.pyGet, GV.lookupFs,
      fcMatches, fcMatchesVals]
  have hft : ftMatches (GV.obj [("foo", GV.num 1)]) = [] := by
    simp [ftMatches, topTypeMatch, typeTagOr, GV.pyGet, GV.lookupFs]
  exact ⟨hfc, h.2.2.1 hfc, hft, h.2.2.2 hft⟩

/-! ### Name-field normalization (C7) -/

/-- C7 counterexample: a tree in which a `name` field's string
(`"AA::TBTC::TBTC"`) contains the distinguishing suffix, yet the reported
coin-type string is not that name with `"0x"` prepended — the top-level
type-tag check matches first and reports the canonical marker instead.  This
refutes the claim's universally quantified second sentence. -/
theorem find_coin_type_name_claim_cex :
    strContainsStr "AA::TBTC::TBTC" TBTC_SUFFIX = true
    ∧ GV.lookupFs [("name", GV.str "AA::TBTC::TBTC")] "name"
        = some (GV.str "AA::TBTC::TBTC")
    ∧ find_coin_type (GV.obj [("type", GV.str TBTC_COIN_TYPE),
        ("fields", GV.obj [("name", GV.str "AA::TBTC::TBTC")])])
        = some TBTC_COIN_TYPE
    ∧ some TBTC_COIN_TYPE ≠ some (normalizeName "AA::TBTC::TBTC") := by
  refine ⟨by decide, rfl, by decide, by decide⟩

/-- C7 amended: when the Matcher matches at a dict via the `name` identity
field — the dict's `name` key holds a string containing the marker's final
two path segments and the top-level type tag did not already match — the
reported coin type is that name normalized to carry the `0x` prefix:
unchanged when it already starts with `0x`, with `"0x"` prepended otherwise;
in particular it equals the canonical marker exactly when the name holds the
marker without its prefix.  (alphafi_tbtc.py lines 189-206; the same nested
`coin_type.fields.name` normalization appears in `_parse_market_entry`,
alphalend_tbtc.py lines 341-346.) -/
theorem find_coin_type_name_normalized (fs : List (String × GV)) (nm : String)
    (hname : GV.lookupFs fs "name" = some (GV.str nm))
    (hcontains : strContainsStr nm TBTC_SUFFIX = true)
    (htop : topTypeMatch (GV.obj fs) = false) :
    find_coin_type (GV.obj fs) = some (normalizeName nm)
    ∧ (strStartsWith0x nm = false →
        find_coin_type (GV.obj fs) = some ("0x" ++ nm))
    ∧ (strStartsWith0x nm = false → "0x" ++ nm = TBTC_COIN_TYPE →
        find_coin_type (GV.obj fs) = some TBTC_COIN_TYPE) := by
  have hmain : find_coin_type (GV.obj fs) = some (normalizeName nm) := by
    rw [find_coin_type]
    simp only [htop, Bool.false_eq_true, if_false]
    rw [fcWalk, hname]
    simp [hcontains]
  refine ⟨hmain, fun hsw => ?_, fun hsw heq => ?_⟩
  · rw [hmain, normalizeName]
    simp [hsw]
  · rw [hmain, normalizeName]
    simp [hsw, heq]

/-- Witness for `find_coin_type_name_normalized`: a `name` field holding the
marker without its `0x` prefix is reported as the canonical marker. -/
theorem find_coin_type_name_normalized_check :
    GV.lookupFs [("name", GV.str
        "77045f1b9f811a7a8fb9ebd085b5b0c55c5cb0d1520ff55f7037f89b5da9f5f1::TBTC::TBTC")]
        "name"
      = some (GV.str
        "77045f1b9f811a7a8fb9ebd085b5b0c55c5cb0d1520ff55f7037f89b5da9f5f1::TBTC::TBTC")
    ∧ find_coin_type (GV.obj [("name", GV.str
        "77045f1b9f811a7a8fb9ebd085b5b0c55c5cb0d1520ff55f7037f89b5da9f5f1::TBTC::TBTC")])
      = some TBTC_COIN_TYPE := by
  refine ⟨rfl, ?_⟩
  exact (find_coin_type_name_normalized
    [("name", GV.str
      "77045f1b9f811a7a8fb9ebd085b5b0c55c5cb0d1520ff55f7037f89b5da9f5f1::TBTC::TBTC")]
    "77045f1b9f811a7a8fb9ebd085b5b0c55c5cb0d1520ff55f7037f89b5da9f5f1::TBTC::TBTC"
    rfl (by decide) rfl).2.2 (by decide) (by decide)

/-! ## Amount-field harvesters
`generic_extract_amounts` (alphafi_tbtc.py lines 154-180) and
`extract_amount_like_fields` (bucket_tbtc.py lines 177-205): identical
walkers over the value tree differing only in the candidate-name list. -/

/-- Python dict store `out[key] = val`: overwrite in place when the key
exists (keeping its position), append otherwise. -/
def dictInsert : List (String × Int) → String → Int → List (String × Int)
  | [], k, v => [(k, v)]
  | (k0, v0) :: rest, k, v =>
    if k0 = k then (k0, v) :: rest else (k0, v0) :: dictInsert rest k v

/-- Lookup in the harvested mapping. -/
def lookupAm : List (String × Int) → String → Option Int
  | [], _ => none
  | (k0, v0) :: rest, k => if k0 = k then some v0 else lookupAm rest k

mutual
/-- The `walk` of the harvesters, threading the mutable `out` dict:
`if k in candidates and isinstance(v, (int, str)): add_int(k, v)
else: walk(v)`; `add_int` silently drops values `int()` rejects. -/
def eaWalk (cands : List String) (acc : List (String × Int)) :
    GV → List (String × Int)
  | .obj fs => eaWalkFs cands acc fs
  | .arr xs => eaWalkArr cands acc xs
  | _ => acc
termination_by d => sizeOf d

def eaWalkFs (cands : List String) (acc : List (String × Int)) :
    List (String × GV) → List (String × Int)
  | [] => acc
  | (k, v) :: rest =>
    if k ∈ cands ∧ isIntOrStr v = true then
      (match pyInt v with
       | some n => eaWalkFs cands (dictInsert acc k n) rest
       | none => eaWalkFs cands acc rest)
    else eaWalkFs cands (eaWalk cands acc v) rest
termination_by l => sizeOf l

def eaWalkArr (cands : List String) (acc : List (String × Int)) :
    List GV → List (String × Int)
  | [] => acc
  | x :: rest => eaWalkArr cands (eaWalk cands acc x) rest
termination_by l => sizeOf l
end

mutual
/-- All `(key, integer)` contributions the walk makes, in traversal order:
the specification of the harvest. -/
def eaContribs (cands : List String) : GV → List (String × Int)
  | .obj fs => eaContribsFs cands fs
  | .arr xs => eaContribsArr cands xs
  | _ => []
termination_by d => sizeOf d

def eaContribsFs (cands : List String) : List (String × GV) → List (String × Int)
  | [] => []
  | (k, v) :: rest =>
    (if k ∈ cands ∧ isIntOrStr v = true then
       (match pyInt v with
        | some n => [(k, n)]
        | none => [])
     else eaContribs cands v) ++ eaContribsFs cands rest
termination_by l => sizeOf l

def eaContribsArr (cands : List String) : List GV → List (String × Int)
  | [] => []
  | x :: rest => eaContribs cands x ++ eaContribsArr cands rest
termination_by l => sizeOf l
end

/-- The root the walk starts from:
`walk(fields if isinstance(fields, dict) else content)`. -/
def harvestRoot (content : GV) : GV :=
  match GV.pyGet content "fields" with
  | some f => if GV.isDict f then f else content
  | none => content

/-- The common harvester body, parameterized by the candidate list. -/
def extractAmounts (cands : List String) (content : GV) : List (String × Int) :=
  if GV.isDict content then eaWalk cands [] (harvestRoot content) else []

/-- Contribution list of the full harvester call. -/
def harvestContribs (cands : List String) (content : GV) : List (String × Int) :=
  if GV.isDict content then eaContribs cands (harvestRoot content) else []

/-- Candidate field names of `generic_extract_amounts` (alphafi_tbtc.py). -/
def gaCandidates : List String :=
  ["balance", "pooled", "pool_balance", "liquidity", "available_liquidity",
   "deposits", "reserves", "total_reserve", "total_liquidity"]

/-- Candidate field names of `extract_amount_like_fields` (bucket_tbtc.py). -/
def bucketCandidates : List String :=
  ["collateral", "collateral_amount", "pooled", "pool_balance", "liquidity",
   "available_liquidity", "deposits", "reserves", "total_reserve",
   "total_liquidity", "balance", "amount"]

/-- `generic_extract_amounts(content)` from alphafi_tbtc.py. -/
def generic_extract_amounts : GV → List (String × Int) :=
  extractAmounts gaCandidates

/-- `extract_amount_like_fields(content)` from bucket_tbtc.py. -/
def extract_amount_like_fields : GV → List (String × Int) :=
  extractAmounts bucketCandidates

/-- Value of the last contribution for a key, in contribution order. -/
def lastVal : List (String × Int) → String → Option Int
  | [], _ => none
  | (k0, v0) :: rest, k =>
    match lastVal rest k with
    | some v => some v
    | none => if k0 = k then some v0 else none

theorem lookupAm_dictInsert (o : List (String × Int)) (k k' : String) (v : Int) :
    lookupAm (dictInsert o k v) k' = if k = k' then some v else lookupAm o k' := by
  induction o with
  | nil => simp [dictInsert, lookupAm]
  | cons p rest ih =>
    obtain ⟨k0, v0⟩ := p
    rw [dictInsert]
    by_cases h0 : k0 = k
    · subst h0
      simp only [if_pos rfl]
      simp only [lookupAm]
      by_cases h1 : k0 = k' <;> simp [h1]
    · rw [if_neg h0]
      simp only [lookupAm]
      by_cases h1 : k0 = k'
      · subst h1
        have h2 : ¬(k = k0) := fun he => h0 he.symm
        simp [h2]
      · simp [h1, ih]

theorem eaWalkFs_eq_foldl (cands : List String) (fs : List (String × GV))
    (ih : ∀ kv ∈ fs, ∀ acc, eaWalk cands acc (Prod.snd kv)
      = (eaContribs cands (Prod.snd kv)).foldl
          (fun o kv => dictInsert o kv.1 kv.2) acc) :
    ∀ acc, eaWalkFs cands acc fs
      = (eaContribsFs cands fs).foldl (fun o kv => dictInsert o kv.1 kv.2) acc := by
  induction fs with
  | nil => intro acc; simp [eaWalkFs, eaContribsFs]
  | cons p rest ihr =>
    intro acc
    obtain ⟨k, v⟩ := p
    have hrest := ihr (fun kv hkv => ih kv (by simp [hkv]))
    rw [eaWalkFs, eaContribsFs]
    by_cases hc : k ∈ cands ∧ isIntOrStr v = true
    · simp only [if_pos hc]
      cases hp : pyInt v with
      | some n => simp [hrest]
      | none => simp [hrest]
    · simp only [if_neg hc, List.foldl_append]
      rw [hrest, ih (k, v) (by simp)]

theorem eaWalkArr_eq_foldl (cands : List String) (xs : List GV)
    (ih : ∀ x ∈ xs, ∀ acc, eaWalk cands acc x
      = (eaContribs cands x).foldl (fun o kv => dictInsert o kv.1 kv.2) acc) :
    ∀ acc, eaWalkArr cands acc xs
      = (eaContribsArr cands xs).foldl (fun o kv => dictInsert o kv.1 kv.2) acc := by
  induction xs with
  | nil => intro acc; simp [eaWalkArr, eaContribsArr]
  | cons x rest ihr =>
    intro acc
    have hrest := ihr (fun x hx => ih x (by simp [hx]))
    rw [eaWalkArr, eaContribsArr]
    simp only [List.foldl_append]
    rw [hrest, ih x (by simp)]

theorem eaWalk_eq_foldl (cands : List String) : ∀ d : GV, ∀ acc,
    eaWalk cands acc d
      = (eaContribs cands d).foldl (fun o kv => dictInsert o kv.1 kv.2) acc := by
  refine GV.deepInduction _ ?_ ?_ ?_ ?_ ?_ ?_
  · intro acc; simp [eaWalk, eaContribs]
  · intro b acc; simp [eaWalk, eaContribs]
  · intro n acc; simp [eaWalk, eaContribs]
  · intro s acc; simp [eaWalk, eaContribs]
  · intro xs ih acc
    rw [eaWalk, eaContribs]
    exact eaWalkArr_eq_foldl cands xs ih acc
  · intro fs ih acc
    rw [eaWalk, eaContribs]
    exact eaWalkFs_eq_foldl cands fs ih acc

theorem lookupAm_foldl (l : List (String × Int)) : ∀ (acc : List (String × Int))
    (k : String),
    lookupAm (l.foldl (fun o kv => dictInsert o kv.1 kv.2) acc) k
      = match lastVal l k with
        | some v => some v
        | none => lookupAm acc k := by
  induction l with
  | nil => intro acc k; simp [lastVal]
  | cons p tl ih =>
    intro acc k
    obtain ⟨k0, v0⟩ := p
    rw [List.foldl_cons, ih, lastVal]
    cases hl : lastVal tl k with
    | some v => simp
    | none =>
      simp only [lookupAm_dictInsert]
      by_cases h0 : k0 = k <;> simp [h0]

theorem mem_dictInsert {kv : String × Int} {o : List (String × Int)}
    {k : String} {v : Int} (h : kv ∈ dictInsert o k v) : kv.1 = k ∨ kv ∈ o := by
  induction o with
  | nil =>
    rw [dictInsert] at h
    simp only [List.mem_singleton] at h
    subst h
    exact Or.inl rfl
  | cons p rest ih =>
    obtain ⟨k0, v0⟩ := p
    rw [dictInsert] at h
    split at h
    · next h0 =>
      rcases List.mem_cons.mp h with h | h
      · subst h
        exact Or.inl h0
      · exact Or.inr (by simp [h])
    · rcases List.mem_cons.mp h with h | h
      · exact Or.inr (by simp [h])
      · rcases ih h with h | h
        · exact Or.inl h
        · exact Or.inr (by simp [h])

theorem mem_foldl_ins {kv : String × Int} (l : List (String × Int)) :
    ∀ acc, kv ∈ l.foldl (fun o p => dictInsert o p.1 p.2) acc →
      kv ∈ acc ∨ kv.1 ∈ l.map Prod.fst := by
  induction l with
  | nil => intro acc h; exact Or.inl h
  | cons p tl ih =>
    intro acc h
    rw [List.foldl_cons] at h
    rcases ih _ h with h | h
    · rcases mem_dictInsert h with h | h
      · exact Or.inr (by simp [h])
      · exact Or.inl h
    · exact Or.inr (by simp [h])

theorem mem_eaContribsFs {cands : List String} {kv : String × Int}
    {fs : List (String × GV)} (h : kv ∈ eaContribsFs cands fs) :
    kv.1 ∈ cands ∨ ∃ p ∈ fs, kv ∈ eaContribs cands (Prod.snd p) := by
  induction fs with
  | nil => simp [eaContribsFs] at h
  | cons p rest ih =>
    obtain ⟨k, v⟩ := p
    rw [eaContribsFs] at h
    rcases List.mem_append.mp h with h | h
    · split at h
      · next hc =>
        split at h
        · simp only [List.mem_singleton] at h
          subst h
          exact Or.inl hc.1
        · simp at h
      · exact Or.inr ⟨(k, v), by simp, h⟩
    · rcases ih h with h | ⟨p, hp, hkv⟩
      · exact Or.inl h
      · exact Or.inr ⟨p, by simp [hp], hkv⟩

theorem mem_eaContribsArr {cands : List String} {kv : String × Int}
    {xs : List GV} (h : kv ∈ eaContribsArr cands xs) :
    ∃ x ∈ xs, kv ∈ eaContribs cands x := by
  induction xs with
  | nil => simp [eaContribsArr] at h
  | cons x rest ih =>
    rw [eaContribsArr] at h
    rcases List.mem_append.mp h with h | h
    · exact ⟨x, by simp, h⟩
    · obtain ⟨x', hx', hkv⟩ := ih h
      exact ⟨x', by simp [hx'], hkv⟩

theorem eaContribs_keys (cands : List String) : ∀ d : GV,
    ∀ kv ∈ eaContribs cands d, kv.1 ∈ cands := by
  refine GV.deepInduction _ ?_ ?_ ?_ ?_ ?_ ?_
  · simp [eaContribs]
  · intro b; simp [eaContribs]
  · intro n; simp [eaContribs]
  · intro s; simp [eaContribs]
  · intro xs ih kv hkv
    rw [eaContribs] at hkv
    obtain ⟨x, hx, h⟩ := mem_eaContribsArr hkv
    exact ih x hx kv h
  · intro fs ih kv hkv
    rw [eaContribs] at hkv
    rcases mem_eaContribsFs hkv with h | ⟨p, hp, h⟩
    · exact h
    · exact ih p hp kv h

/-- C3: the harvesters perform an exhaustive depth-first traversal with
no short-circuit; the result maps each candidate key to the integer value of
its last-visited convertible occurrence (`lastVal` of the traversal-ordered
contribution list — so 10 then 20 harvests 20); keys outside the candidate
set never appear; occurrences whose value `int()` cannot convert contribute
nothing (the contribution list only records successful conversions), and the
functions are total — no input raises.  `generic_extract_amounts` and
`extract_amount_like_fields` are this body at their candidate lists.
(alphafi_tbtc.py lines 154-180; bucket_tbtc.py lines 177-205.) -/
theorem harvester_exhaustive_last_wins (cands : List String) (content : GV) :
    (∀ k, lookupAm (extractAmounts cands content) k
        = lastVal (harvestContribs cands content) k)
    ∧ (∀ kv ∈ extractAmounts cands content, kv.1 ∈ cands)
    ∧ generic_extract_amounts content = extractAmounts gaCandidates content
    ∧ extract_amount_like_fields content = extractAmounts bucketCandidates content := by
  refine ⟨?_, ?_, rfl, rfl⟩
  · intro k
    rw [extractAmounts, harvestContribs]
    by_cases hd : GV.isDict content = true
    · simp only [hd, if_true]
      rw [eaWalk_eq_foldl cands (harvestRoot content) [], lookupAm_foldl]
      cases lastVal (eaContribs cands (harvestRoot content)) k <;> simp [lookupAm]
    · simp [hd, lastVal, lookupAm]
  · intro kv hkv
    rw [extractAmounts] at hkv
    split at hkv
    · rw [eaWalk_eq_foldl] at hkv
      rcases mem_foldl_ins _ _ hkv with h | h
      · simp at h
      · obtain ⟨kv', hkv', heq⟩ := List.mem_map.mp h
        have hk := eaContribs_keys cands _ kv' hkv'
        rw [heq] at hk
        exact hk
    · simp at hkv

/-- Witness for `harvester_exhaustive_last_wins`: the same candidate key
appears with values 10 then 20 in traversal order and harvests 20; the
harvested key `balance` is in the candidate set. -/
theorem harvester_exhaustive_last_wins_check :
    lookupAm (extract_amount_like_fields (GV.obj [("fields", GV.obj
        [("a", GV.obj [("balance", GV.num 10)]), ("balance", GV.num 20)])]))
      "balance" = some 20
    ∧ "balance" ∈ bucketCandidates := by
  have h := harvester_exhaustive_last_wins bucketCandidates
    (GV.obj [("fields", GV.obj
      [("a", GV.obj [("balance", GV.num 10)]), ("balance", GV.num 20)])])
  constructor
  · rw [show extract_amount_like_fields (GV.obj [("fields", GV.obj
        [("a", GV.obj [("balance", GV.num 10)]), ("balance", GV.num 20)])])
      = extractAmounts bucketCandidates (GV.obj [("fields", GV.obj
        [("a", GV.obj [("balance", GV.num 10)]), ("balance", GV.num 20)])]) from rfl]
    rw [h.1 "balance"]
    simp [harvestContribs, harvestRoot, GV.pyGet, GV.lookupFs, GV.isDict,
      eaContribs, eaContribsFs, eaContribsArr, isIntOrStr, pyInt,
      bucketCandidates, lastVal]
  · simp [bucketCandidates]

/-! ## Multi-source price/supply fallback of `query_alphalend_tbtc`
(alphalend_tbtc.py lines 412-457).

The four external fetches are oracles: `Except.error` models a raised
exception, and for `fetch_blockberry_tbtc` an `ok GV.null` models its
`return None` (missing API key).  Each phase mirrors the Python assignments
in order, including the `AttributeError` paths when a fetched value is not a
dict (those exceptions are swallowed by the enclosing `except ... : pass`,
leaving every assignment already made in place and skipping the rest).
The enclosing function contains a syntax error further down (line 487), a
finding recorded with the error-containment analysis; the merge logic of
lines 412-457 is embedded as written. -/

/-- The accumulating snapshot variables of the fallback block. -/
structure MergeSt where
  used : Option String
  price : Option GV
  circ : Option GV
  total : Option GV

/-- Which later sources were actually consulted. -/
structure FallbackCalls where
  cgCalled : Bool
  mktCalled : Bool
  simpleCalled : Bool

/-- The Blockberry phase (lines 414-427): on success with a non-empty dict,
fill all four variables; on `None`, a non-dict, or an exception, leave
everything unset. -/
def bbPhase (bbRes : Except Unit GV) : MergeSt :=
  match bbRes with
  | .error _ => ⟨none, none, none, none⟩
  | .ok bb =>
    if GV.isDict bb && GV.truthy bb then
      ⟨some "blockberry", GV.pyVar bb "price", GV.pyVar bb "circulatingSupply",
       GV.pyVar bb "supply"⟩
    else ⟨none, none, none, none⟩

/-- `(md.get("current_price", {}) or {})`. -/
def currentPriceObj (md : GV) : GV :=
  GV.pyOr (GV.pyGetD md "current_price" (GV.obj [])) (GV.obj [])

/-- The CoinGecko markets-endpoint phase (lines 438-445): fills only the
still-missing fields; a raised fetch or an `AttributeError` on a non-dict
first element leaves the state unchanged. -/
def mktPhase (mktRes : Except Unit GV) (price circ total : Option GV) :
    Option GV × Option GV × Option GV :=
  match mktRes with
  | .error _ => (price, circ, total)
  | .ok mraw =>
    let mkt := GV.pyOr mraw (GV.obj [])
    if GV.isDict mkt then
      (if price.isNone then GV.pyVar mkt "current_price" else price,
       if circ.isNone then GV.pyVar mkt "circulating_supply" else circ,
       if total.isNone then GV.pyVar mkt "total_supply" else total)
    else (price, circ, total)

/-- The simple-price phase (lines 447-451): the assignment stores the fetch
result even when it is `None`. -/
def simplePhase (simpleRes : Except Unit (Option GV)) (price : Option GV) :
    Option GV :=
  match simpleRes with
  | .error _ => price
  | .ok v => v

/-- Lines 438-451: the markets endpoint is consulted only when a field is
still missing after the `market_data` merge, and the simple-price endpoint
only when the price is still missing after that.  Returns the final
(price, circ, total) and which of the two endpoints were consulted. -/
def cgChain (mktRes : Except Unit GV) (simpleRes : Except Unit (Option GV))
    (price1 circ1 total1 : Option GV) :
    (Option GV × Option GV × Option GV) × Bool × Bool :=
  let needMkt := price1.isNone || circ1.isNone || total1.isNone
  let s2 := if needMkt then mktPhase mktRes price1 circ1 total1
    else (price1, circ1, total1)
  let needSimple := s2.1.isNone
  let price3 := if needSimple then simplePhase simpleRes s2.1 else s2.1
  ((price3, s2.2.1, s2.2.2), needMkt, needSimple)

/-- The CoinGecko chain (lines 430-457): consulted only for still-missing
fields; exceptions anywhere inside leave the already-made assignments and
skip the rest of the block. -/
def cgPhase (cgRes mktRes : Except Unit GV) (simpleRes : Except Unit (Option GV))
    (st : MergeSt) : MergeSt × FallbackCalls :=
  match cgRes with
  | .error _ => (st, ⟨true, false, false⟩)
  | .ok cg =>
    if GV.isDict cg then
      let md := GV.pyGetD cg "market_data" (GV.obj [])
      if GV.isDict md then
        if st.price.isNone && !(GV.isDict (currentPriceObj md)) then
          (st, ⟨true, false, false⟩)
        else
          let price1 := if st.price.isNone
            then GV.pyVar (currentPriceObj md) "usd" else st.price
          let circ1 := if st.circ.isNone
            then GV.pyVar md "circulating_supply" else st.circ
          let total1 := if st.total.isNone
            then GV.pyVar md "total_supply" else st.total
          let ch := cgChain mktRes simpleRes price1 circ1 total1
          let used' := if st.used.isNone then some "coingecko" else st.used
          (⟨used', ch.1.1, ch.1.2.1, ch.1.2.2⟩, ⟨true, ch.2.1, ch.2.2⟩)
      else (st, ⟨true, false, false⟩)
    else (st, ⟨true, false, false⟩)

/-- The whole fallback block of `query_alphalend_tbtc` (lines 412-457):
Blockberry first, then — only if some field is still missing — the CoinGecko
chain. -/
def query_alphalend_fallback (bbRes cgRes mktRes : Except Unit GV)
    (simpleRes : Except Unit (Option GV)) : MergeSt × FallbackCalls :=
  let st := bbPhase bbRes
  if st.used.isNone || st.price.isNone || st.circ.isNone || st.total.isNone then
    cgPhase cgRes mktRes simpleRes st
  else (st, ⟨false, false, false⟩)

theorem GV.pyVar_isDict {d : GV} {k : String} {v : GV}
    (h : GV.pyVar d k = some v) : GV.isDict d = true := by
  cases d <;> simp [GV.pyVar, GV.pyGet, GV.isDict] at h ⊢

theorem mktPhase_preserves (mktRes : Except Unit GV)
    (price circ total : Option GV) :
    (∀ v, price = some v → (mktPhase mktRes price circ total).1 = some v)
    ∧ (∀ v, circ = some v → (mktPhase mktRes price circ total).2.1 = some v)
    ∧ (∀ v, total = some v → (mktPhase mktRes price circ total).2.2 = some v) := by
  cases mktRes with
  | error e => exact ⟨fun v h => h, fun v h => h, fun v h => h⟩
  | ok mraw =>
    rw [mktPhase]
    split
    · refine ⟨fun v h => ?_, fun v h => ?_, fun v h => ?_⟩ <;> simp [h]
    · exact ⟨fun v h => h, fun v h => h, fun v h => h⟩

theorem cgChain_preserves (mktRes : Except Unit GV)
    (simpleRes : Except Unit (Option GV)) (price1 circ1 total1 : Option GV) :
    (∀ v, price1 = some v →
      (cgChain mktRes simpleRes price1 circ1 total1).1.1 = some v)
    ∧ (∀ v, circ1 = some v →
      (cgChain mktRes simpleRes price1 circ1 total1).1.2.1 = some v)
    ∧ (∀ v, total1 = some v →
      (cgChain mktRes simpleRes price1 circ1 total1).1.2.2 = some v) := by
  refine ⟨fun v h => ?_, fun v h => ?_, fun v h => ?_⟩ <;> subst h <;>
    simp only [cgChain, Option.isNone_some, Bool.false_or, Bool.or_false]
  · by_cases hm : (circ1.isNone || total1.isNone) = true
    · simp only [hm, if_true]
      simp [(mktPhase_preserves mktRes (some v) circ1 total1).1 v rfl]
    · simp [hm]
  · by_cases hm : (price1.isNone || total1.isNone) = true
    · simp only [hm, if_true]
      simp [(mktPhase_preserves mktRes price1 (some v) total1).2.1 v rfl]
    · simp [hm]
  · by_cases hm : (price1.isNone || circ1.isNone) = true
    · simp only [hm, if_true]
      simp [(mktPhase_preserves mktRes price1 circ1 (some v)).2.2 v rfl]
    · simp [hm]

theorem cgPhase_preserves (cgRes mktRes : Except Unit GV)
    (simpleRes : Except Unit (Option GV)) (st : MergeSt) :
    (∀ v, st.price = some v →
      (cgPhase cgRes mktRes simpleRes st).1.price = some v)
    ∧ (∀ v, st.circ = some v →
      (cgPhase cgRes mktRes simpleRes st).1.circ = some v)
    ∧ (∀ v, st.total = some v →
      (cgPhase cgRes mktRes simpleRes st).1.total = some v) := by
  cases cgRes with
  | error e => exact ⟨fun v h => h, fun v h => h, fun v h => h⟩
  | ok cg =>
    by_cases hcg : GV.isDict cg = true
    · by_cases hmd : GV.isDict (GV.pyGetD cg "market_data" (GV.obj [])) = true
      · by_cases hraise : (st.price.isNone
            && !(GV.isDict (currentPriceObj (GV.pyGetD cg "market_data"
              (GV.obj []))))) = true
        · refine ⟨fun v h => ?_, fun v h => ?_, fun v h => ?_⟩ <;>
            (simp only [cgPhase, hcg, hmd, hraise, if_true]; exact h)
        · refine ⟨fun v h => ?_, fun v h => ?_, fun v h => ?_⟩ <;>
            simp only [cgPhase, hcg, hmd, hraise, if_true, Bool.false_eq_true,
              if_false]
          · exact (cgChain_preserves mktRes simpleRes _ _ _).1 v (by simp [h])
          · exact (cgChain_preserves mktRes simpleRes _ _ _).2.1 v (by simp [h])
          · exact (cgChain_preserves mktRes simpleRes _ _ _).2.2 v (by simp [h])
      · refine ⟨fun v h => ?_, fun v h => ?_, fun v h => ?_⟩ <;>
          (simp only [cgPhase, hcg, hmd, if_true, Bool.false_eq_true, if_false];
           exact h)
    · refine ⟨fun v h => ?_, fun v h => ?_, fun v h => ?_⟩ <;>
        (simp only [cgPhase, hcg, Bool.false_eq_true, if_false]; exact h)

/-- C4: precedence of the fallback merge in `query_alphalend_tbtc`
(alphalend_tbtc.py lines 412-457).  With Blockberry ahead of the CoinGecko
chain: (1)-(3) every field Blockberry provided (non-null) keeps Blockberry's
value in the final snapshot, whatever the CoinGecko chain returns; (4) when
Blockberry filled all three fields no further source is consulted at all;
(5) a field Blockberry left missing is filled by the CoinGecko value — later
sources supply only the gaps.  Within the CoinGecko chain the same holds by
`cgChain_preserves`/`mktPhase_preserves`: the markets and simple-price
endpoints are consulted only while fields are missing and never overwrite a
filled field. -/
theorem fallback_precedence (bb : GV) (cgRes mktRes : Except Unit GV)
    (simpleRes : Except Unit (Option GV))
    (hdict : GV.isDict bb = true) (htruthy : GV.truthy bb = true) :
    (∀ v, GV.pyVar bb "price" = some v →
      (query_alphalend_fallback (.ok bb) cgRes mktRes simpleRes).1.price = some v)
    ∧ (∀ v, GV.pyVar bb "circulatingSupply" = some v →
      (query_alphalend_fallback (.ok bb) cgRes mktRes simpleRes).1.circ = some v)
    ∧ (∀ v, GV.pyVar bb "supply" = some v →
      (query_alphalend_fallback (.ok bb) cgRes mktRes simpleRes).1.total = some v)
    ∧ ((GV.pyVar bb "price").isSome = true →
       (GV.pyVar bb "circulatingSupply").isSome = true →
       (GV.pyVar bb "supply").isSome = true →
        query_alphalend_fallback (.ok bb) cgRes mktRes simpleRes
          = (bbPhase (.ok bb), ⟨false, false, false⟩))
    ∧ (GV.pyVar bb "price" = none → ∀ cg usd, cgRes = .ok cg →
        GV.isDict cg = true →
        GV.isDict (GV.pyGetD cg "market_data" (GV.obj [])) = true →
        GV.pyVar (currentPriceObj (GV.pyGetD cg "market_data" (GV.obj [])))
          "usd" = some usd →
        (query_alphalend_fallback (.ok bb) cgRes mktRes simpleRes).1.price
          = some usd) := by
  have hbb : bbPhase (.ok bb)
      = ⟨some "blockberry", GV.pyVar bb "price", GV.pyVar bb "circulatingSupply",
         GV.pyVar bb "supply"⟩ := by
    rw [bbPhase]
    simp [hdict, htruthy]
  refine ⟨fun v h => ?_, fun v h => ?_, fun v h => ?_, fun h1 h2 h3 => ?_,
    fun hmiss cg usd hcg hdcg hdmd husd => ?_⟩
  · rw [query_alphalend_fallback, hbb]
    by_cases hc : ((some "blockberry" : Option String).isNone
        || (GV.pyVar bb "price").isNone
        || (GV.pyVar bb "circulatingSupply").isNone
        || (GV.pyVar bb "supply").isNone) = true
    · simp only [hc, if_true]
      exact (cgPhase_preserves cgRes mktRes simpleRes _).1 v h
    · simp only [hc, Bool.false_eq_true, if_false]
      exact h
  · rw [query_alphalend_fallback, hbb]
    by_cases hc : ((some "blockberry" : Option String).isNone
        || (GV.pyVar bb "price").isNone
        || (GV.pyVar bb "circulatingSupply").isNone
        || (GV.pyVar bb "supply").isNone) = true
    · simp only [hc, if_true]
      exact (cgPhase_preserves cgRes mktRes simpleRes _).2.1 v h
    · simp only [hc, Bool.false_eq_true, if_false]
      exact h
  · rw [query_alphalend_fallback, hbb]
    by_cases hc : ((some "blockberry" : Option String).isNone
        || (GV.pyVar bb "price").isNone
        || (GV.pyVar bb "circulatingSupply").isNone
        || (GV.pyVar bb "supply").isNone) = true
    · simp only [hc, if_true]
      exact (cgPhase_preserves cgRes mktRes simpleRes _).2.2 v h
    · simp only [hc, Bool.false_eq_true, if_false]
      exact h
  · obtain ⟨pv, hpv⟩ := Option.isSome_iff_exists.mp h1
    obtain ⟨cv, hcv⟩ := Option.isSome_iff_exists.mp h2
    obtain ⟨tv, htv⟩ := Option.isSome_iff_exists.mp h3
    rw [query_alphalend_fallback, hbb]
    simp [hpv, hcv, htv, hbb]
  · subst hcg
    have hcpo : GV.isDict (currentPriceObj (GV.pyGetD cg "market_data"
        (GV.obj []))) = true := GV.pyVar_isDict husd
    rw [query_alphalend_fallback, hbb]
    simp only [hmiss, Option.isNone_none, Option.isNone_some, Bool.or_true,
      Bool.true_or, Bool.false_or, Bool.or_false, if_true]
    simp only [cgPhase, hdcg, hdmd, if_true, hmiss, Option.isNone_none,
      hcpo, Bool.not_true, Bool.and_false, Bool.true_and, Bool.false_eq_true,
      if_false]
    exact (cgChain_preserves mktRes simpleRes _ _ _).1 usd (by simp [husd])

/-- Witness for `fallback_precedence`: Blockberry provides the price 5, so
the final price stays 5 even though CoinGecko reports 9; for a Blockberry
response without a price, the CoinGecko price 9 fills the gap. -/
theorem fallback_precedence_check :
    (query_alphalend_fallback
        (.ok (GV.obj [("price", GV.num 5)]))
        (.ok (GV.obj [("market_data", GV.obj
          [("current_price", GV.obj [("usd", GV.num 9)])])]))
        (.ok GV.null) (.ok none)).1.price = some (GV.num 5)
    ∧ (query_alphalend_fallback
        (.ok (GV.obj [("note", GV.str "no price")]))
        (.ok (GV.obj [("market_data", GV.obj
          [("current_price", GV.obj [("usd", GV.num 9)])])]))
        (.ok GV.null) (.ok none)).1.price = some (GV.num 9) := by
  constructor
  · exact (fallback_precedence (GV.obj [("price", GV.num 5)])
      (.ok (GV.obj [("market_data", GV.obj
        [("current_price", GV.obj [("usd", GV.num 9)])])]))
      (.ok GV.null) (.ok none) rfl rfl).1 (GV.num 5) rfl
  · exact (fallback_precedence (GV.obj [("note", GV.str "no price")])
      (.ok (GV.obj [("market_data", GV.obj
        [("current_price", GV.obj [("usd", GV.num 9)])])]))
      (.ok GV.null) (.ok none) rfl rfl).2.2.2.2 rfl
      (GV.obj [("market_data", GV.obj
        [("current_price", GV.obj [("usd", GV.num 9)])])])
      (GV.num 9) rfl rfl rfl rfl

/-! ## External-failure containment in `query_alphafi_tbtc`
(alphafi_tbtc.py lines 244-266).

The Blockberry fetch outcome is the oracle `bbRes`; `Except.error e` models
any exception with `str(e) = e`.  A successful fetch whose decoded body is
not a dict makes `bb.get(...)` raise `AttributeError` inside the same `try`,
which the `except` also converts into the `unavailable` section; that error
message is abstracted as the string `"AttributeError"`.

The corresponding fallback block of `query_alphalend_tbtc`
(alphalend_tbtc.py lines 459-492) cannot be modelled as running code at all:
its `except Exception as e:` at line 487 has no matching `try` — the module
is a `SyntaxError` and `query_alphalend_tbtc` can never be imported or
called, although the orphaned handler's body (lines 488-492) is precisely the
`status: unavailable` + recorded-error section the specification describes;
moreover its reachable unavailable branch (lines 469-472) records no error
key.  That finding is recorded with the claim; the theorem below proves the
containment behaviour for the `query_alphafi_tbtc` entry point, whose code
parses. -/

/-- The `tbtc_global` section assembled by the fallback block of
`query_alphafi_tbtc`: built for every fetch outcome — the block never lets
an external exception escape. -/
def alphafi_tbtc_global (bbRes : Except String GV) : GV :=
  match bbRes with
  | .ok bb =>
    if GV.isDict bb then
      GV.obj [("source", GV.str "blockberry"),
              ("price_usd", GV.pyGetD bb "price" GV.null),
              ("circulating_supply", GV.pyGetD bb "circulatingSupply" GV.null),
              ("total_supply", GV.pyGetD bb "supply" GV.null),
              ("supply_usd", GV.pyGetD bb "supplyInUsd" GV.null),
              ("market_cap_usd", GV.pyGetD bb "marketCap" GV.null),
              ("total_volume", GV.pyGetD bb "totalVolume" GV.null),
              ("holders_count", GV.pyGetD bb "holdersCount" GV.null),
              ("status", GV.str "ok")]
    else
      GV.obj [("source", GV.str "blockberry"),
              ("status", GV.str "unavailable"),
              ("error", GV.str "AttributeError")]
  | .error e =>
    GV.obj [("source", GV.str "blockberry"),
            ("status", GV.str "unavailable"),
            ("error", GV.str e)]

/-- C6 (for the entry point whose module parses): the fallback block of
`query_alphafi_tbtc` is total over every fetch outcome — an external failure
yields a present `tbtc_global` section with status `"unavailable"` and the
raised error recorded, never a raised exception; a successful dict response
yields status `"ok"`.  (alphafi_tbtc.py lines 244-266.)  The same claim fails
for `query_alphalend_tbtc`: see the code-bug record (orphaned `except`,
alphalend_tbtc.py line 487). -/
theorem alphafi_fallback_containment (e : String) (bb : GV) :
    GV.pyGet (alphafi_tbtc_global (.error e)) "status"
      = some (GV.str "unavailable")
    ∧ GV.pyGet (alphafi_tbtc_global (.error e)) "error" = some (GV.str e)
    ∧ GV.pyGet (alphafi_tbtc_global (.ok bb)) "status"
      = some (GV.str (if GV.isDict bb then "ok" else "unavailable")) := by
  refine ⟨rfl, rfl, ?_⟩
  by_cases hd : GV.isDict bb = true <;>
    simp [alphafi_tbtc_global, hd, GV.pyGet, GV.lookupFs]

/-! ## Aggregation loop of `query_bucket_tbtc`
(bucket_tbtc.py lines 235-262).

An entry is represented by its harvested `amounts` mapping (the other
fields of the entry dict play no role in the aggregation); `amounts` values
are always Python ints, being outputs of `extract_amount_like_fields`. -/

/-- `preferred_keys` of bucket_tbtc.py lines 236-239. -/
def preferred_keys : List String :=
  ["collateral", "collateral_amount", "pooled", "pool_balance", "balance",
   "amount", "reserves", "total_reserve"]

/-- The `for k in preferred_keys: ... break` loop of lines 243-247: the
first preferred key present in the amounts, with its value; `none` when the
loop falls through (in which case `picked_field`/`picked_value_raw` are set
to `None`, lines 250-251). -/
def pickLoop (am : List (String × Int)) : List String → Option (String × Int)
  | [] => none
  | k :: rest =>
    match lookupAm am k with
    | some v => some (k, v)
    | none => pickLoop am rest

/-- The per-entry pick at the fixed preference order. -/
def pickAmount (am : List (String × Int)) : Option (String × Int) :=
  pickLoop am preferred_keys

/-! ### Binary64 rendering of `locked_total_human8`

`total_locked_raw / 10**8` (bucket_tbtc.py line 254) is CPython `int / int`
true division: the exact rational quotient correctly rounded to the nearest
IEEE-754 binary64, ties to the even mantissa (`long_true_divide`).
`f"{...:.8f}"` (line 261) then renders the double's exact binary value
correctly rounded to 8 decimal places, again ties to even.  Both roundings
are modelled below in exact integer arithmetic, for the non-negative finite
normal range the aggregation produces (no subnormals or exponent overflow,
which would need totals outside any sum of on-chain amounts). -/

/-- Decimal digits of `n`, least significant first, via explicit fuel: the
structural twin of `natDigitsRev` (see `natDigitsFuel_eq`), so that the
concrete renderings below evaluate by kernel reduction. -/
def natDigitsFuel : Nat → Nat → List Char
  | 0, _ => []
  | fuel + 1, n =>
    if n < 10 then [digitChar n]
    else digitChar (n % 10) :: natDigitsFuel fuel (n / 10)

/-- Decimal digit string of `n`, most significant digit first. -/
def natDecimal (n : Nat) : List Char := (natDigitsFuel (n + 1) n).reverse

theorem natDigitsFuel_eq : ∀ {fuel n : Nat}, n < fuel →
    natDigitsFuel fuel n = natDigitsRev n := by
  intro fuel
  induction fuel with
  | zero => intro n h; omega
  | succ fuel ih =>
    intro n h
    rw [natDigitsFuel, natDigitsRev]
    by_cases h10 : n < 10
    · simp [h10]
    · simp only [if_neg h10, dif_neg h10]
      have hlt : n / 10 < fuel := by
        have h2 : n / 10 < n := Nat.div_lt_self (by omega) (by omega)
        omega
      rw [ih hlt]

theorem natDecimal_eq (n : Nat) : natDecimal n = (natDigitsRev n).reverse := by
  rw [natDecimal, natDigitsFuel_eq (Nat.lt_succ_self n)]

/-- Round `num / den` to the nearest integer, ties to the even quotient
(`den > 0`): the rounding of both binary64 operations and CPython's
fixed-point float formatting. -/
def roundHalfEven (num den : Nat) : Nat :=
  let q := num / den
  let r := num % den
  if 2 * r > den then q + 1
  else if 2 * r < den then q
  else if q % 2 = 0 then q else q + 1

/-- Floor of `log2 n` via explicit fuel (0 for `n = 0`). -/
def log2Fuel : Nat → Nat → Nat
  | 0, _ => 0
  | fuel + 1, n => if n ≤ 1 then 0 else log2Fuel fuel (n / 2) + 1

def natLog2 (n : Nat) : Nat := log2Fuel n n

/-- CPython `X / d` for positive ints: the exact quotient correctly rounded
to binary64 (round to nearest, ties to the even 53-bit mantissa), returned
as a dyadic pair `(mant, exp)` of value `mant * 2 ^ exp`.  The binade
`2^k ≤ X/d < 2^(k+1)` is located through the floor quotient scaled by
`2^100` (exact for `d ≤ 2^100`, and `X ≥ 1` keeps the scaled quotient
`≥ 1`); the mantissa is then the quotient scaled to `[2^52, 2^53)` and
rounded half-even with the exact remainder. -/
def divDouble (X d : Nat) : Nat × Int :=
  if X = 0 then (0, 0)
  else
    let k : Int := (natLog2 (X * 2 ^ 100 / d) : Int) - 100
    let s : Int := 52 - k
    let mant :=
      if 0 ≤ s then roundHalfEven (X * 2 ^ s.toNat) d
      else roundHalfEven X (d * 2 ^ (-s).toNat)
    (mant, k - 52)

/-- `round(value * 10^8)` half-to-even for a dyadic `(mant, exp)`: the
scaled integer that `%.8f` renders. -/
def scaled8OfDyadic (p : Nat × Int) : Nat :=
  if 0 ≤ p.2 then p.1 * 10 ^ 8 * 2 ^ p.2.toNat
  else roundHalfEven (p.1 * 10 ^ 8) (2 ^ (-p.2).toNat)

/-- The scaled integer rendered by `f"{n / 10**8:.8f}"` for a natural `n`. -/
def pyFloat8Scaled (n : Nat) : Nat :=
  scaled8OfDyadic (divDouble n (10 ^ 8))

/-- Fixed 8-decimal rendering of a scaled integer `I` (value `I / 10^8`),
with the sign taken from `t`. -/
def fixed8Render (t : Int) (I : Nat) : String :=
  String.mk ((if t < 0 then ['-'] else [])
    ++ natDecimal (I / 10 ^ 8) ++ '.' :: rjustZeros (natDecimal (I % 10 ^ 8)) 8)

/-- The claim's reading of `locked_total_human8`: the exact quotient
`t / 10^8` rendered with 8 decimal places — its scaled integer is `t`
itself.  The source computes the quotient in binary64, so this definition
follows the specification's words and is compared against the source-side
`pyFloatFixed8`. -/
def exactFixed8 (t : Int) : String := fixed8Render t t.natAbs

/-- `f"{total_locked_raw / 10**8:.8f}"` (bucket_tbtc.py lines 254 and 261):
binary64 division of the int total by `10**8`, then 8-decimal rendering of
the double's exact value.  Rounding is sign-symmetric, so a negative total
goes through the same pipeline on its absolute value. -/
def pyFloatFixed8 (t : Int) : String :=
  fixed8Render t (pyFloat8Scaled t.natAbs)

/-- The aggregation of `query_bucket_tbtc` (lines 240-262): the running
total over entries, each entry's `(picked_field, picked_value_raw)` pair,
and `locked_total_human8` computed through the binary64 division. -/
def query_bucket_tbtc (entries : List (List (String × Int))) :
    Int × List (Option String × Option Int) × String :=
  let total := entries.foldl
    (fun t am => t + ((pickAmount am).map Prod.snd).getD 0) 0
  (total,
   entries.map (fun am =>
     ((pickAmount am).map Prod.fst, (pickAmount am).map Prod.snd)),
   pyFloatFixed8 total)

/-- First name of the preference order present in the amounts. -/
def firstPreferredKey (am : List (String × Int)) : Option String :=
  preferred_keys.find? (fun k => (lookupAm am k).isSome)

theorem foldl_add_eq_sum {α : Type} (f : α → Int) (l : List α) :
    ∀ t0, l.foldl (fun t am => t + f am) t0 = t0 + (l.map f).sum := by
  induction l with
  | nil => intro t0; simp
  | cons a tl ih =>
    intro t0
    rw [List.foldl_cons, ih, List.map_cons, List.sum_cons]
    ring

theorem pickLoop_eq_find (am : List (String × Int)) (ks : List String) :
    pickLoop am ks
      = (ks.find? (fun k => (lookupAm am k).isSome)).bind
          (fun k => (lookupAm am k).map (fun v => (k, v))) := by
  induction ks with
  | nil => rfl
  | cons k rest ih =>
    rw [pickLoop, List.find?]
    cases hl : lookupAm am k with
    | some v => simp [hl]
    | none => simp [hl, ih]

/-- Re-scaling the fixed 8-decimal rendering of a scaled integer recovers
that integer, and the fractional part always has exactly 8 digits. -/
theorem parse_fixed8Render (t : Int) (ht : 0 ≤ t) (I : Nat) :
    parseDecScaled (fixed8Render t I) 8 = some I
    ∧ ((splitAtDot (fixed8Render t I).toList).2.map List.length) = some 8 := by
  have hr : I % 10 ^ 8 < 10 ^ 8 := Nat.mod_lt _ (by norm_num)
  have hneg : ¬(t < 0) := not_lt.mpr ht
  have hL : (natDecimal (I % 10 ^ 8)).length ≤ 8 := by
    rw [natDecimal_eq, List.length_reverse]
    exact length_natDigitsRev_le (by norm_num) hr
  have hfmt : fixed8Render t I
      = String.mk (natDecimal (I / 10 ^ 8)
          ++ '.' :: rjustZeros (natDecimal (I % 10 ^ 8)) 8) := by
    rw [fixed8Render, if_neg hneg]
    rfl
  have hlen : (rjustZeros (natDecimal (I % 10 ^ 8)) 8).length = 8 := by
    rw [rjustZeros, List.length_append, List.length_replicate]
    omega
  have hnodot : '.' ∉ natDecimal (I / 10 ^ 8) := by
    rw [natDecimal_eq]
    exact dot_not_mem_natDigitsRev _
  have hsplit : splitAtDot (fixed8Render t I).toList
      = (natDecimal (I / 10 ^ 8),
         some (rjustZeros (natDecimal (I % 10 ^ 8)) 8)) := by
    rw [hfmt, toList_mk, splitAtDot_append _ hnodot]
  constructor
  · rw [parseDecScaled, hsplit]
    have hfpne : ¬(rjustZeros (natDecimal (I % 10 ^ 8)) 8).isEmpty = true := by
      rw [List.isEmpty_iff]
      intro h
      have hl := congrArg List.length h
      rw [hlen] at hl
      simp at hl
    have hdvI : digitsVal (natDecimal (I / 10 ^ 8)) = some (I / 10 ^ 8) := by
      rw [natDecimal_eq]
      exact digitsVal_natDigitsRev _
    have hdv : digitsVal (rjustZeros (natDecimal (I % 10 ^ 8)) 8)
        = some (I % 10 ^ 8) := by
      rw [digitsVal, if_neg (by simpa using hfpne), rjustZeros, natDecimal_eq,
        digitsValAux_zeros_left]
      simpa using digitsValAux_natDigitsRev (I % 10 ^ 8) 0
    simp only [hlen, hdvI, hdv, if_pos (le_refl (8 : Nat)), Nat.sub_self,
      pow_zero, mul_one]
    congr 1
    rw [mul_comm]
    exact Nat.div_add_mod I (10 ^ 8)
  · rw [hsplit]
    show some (rjustZeros (natDecimal (I % 10 ^ 8)) 8).length = some 8
    rw [hlen]

set_option maxRecDepth 65536 in
/-- C10 counterexample: at the reachable total `10^17 + 1` the program's
`locked_total_human8`, computed through the binary64 division
`total / 10**8`, renders `"1000000000.00000000"`, while the total divided
by `10^8` rendered with 8 decimal places is `"1000000000.00000001"`
(`exactFixed8`, the claim's words): re-scaling the rendered string by
`10^8` yields `10^17`, not the total.  The claim's final clause is false of
the program as stated. -/
theorem bucket_human8_exact_claim_cex :
    (query_bucket_tbtc [[("balance", 100000000000000001)]]).1
      = 100000000000000001
    ∧ (query_bucket_tbtc [[("balance", 100000000000000001)]]).2.2
      = "1000000000.00000000"
    ∧ exactFixed8 100000000000000001 = "1000000000.00000001"
    ∧ (query_bucket_tbtc [[("balance", 100000000000000001)]]).2.2
      ≠ exactFixed8 100000000000000001
    ∧ parseDecScaled
        (query_bucket_tbtc [[("balance", 100000000000000001)]]).2.2 8
      = some 100000000000000000 := by
  refine ⟨by decide, by decide, by decide, by decide, by decide⟩

/-- C10 (amended): in `query_bucket_tbtc`, `locked_total_raw` is the sum
over entries of the value of the first name in the fixed preference order
present in that entry's harvested amounts; an entry with no preferred key
contributes 0 and gets `(picked_field, picked_value_raw) = (None, None)`;
and `locked_total_human8` is the binary64 quotient `total / 10^8` —
CPython's correctly rounded int division — rendered with exactly 8 decimal
places: re-scaling the rendered string by `10^8` recovers the
float-rounded scaled value `pyFloat8Scaled total`, which can differ from
the total itself for large totals (see `bucket_human8_exact_claim_cex`).
(bucket_tbtc.py lines 235-262.) -/
theorem bucket_aggregation (entries : List (List (String × Int))) :
    (query_bucket_tbtc entries).1
      = (entries.map (fun am => ((pickAmount am).map Prod.snd).getD 0)).sum
    ∧ (∀ am, pickAmount am
        = (firstPreferredKey am).bind
            (fun k => (lookupAm am k).map (fun v => (k, v))))
    ∧ (∀ am ∈ entries, firstPreferredKey am = none →
        ((pickAmount am).map Prod.fst, (pickAmount am).map Prod.snd)
          = (none, none)
        ∧ ((pickAmount am).map Prod.snd).getD 0 = 0)
    ∧ (query_bucket_tbtc entries).2.2
        = pyFloatFixed8 (query_bucket_tbtc entries).1
    ∧ (∀ t : Nat, parseDecScaled (pyFloatFixed8 (Int.ofNat t)) 8
          = some (pyFloat8Scaled t)
        ∧ ((splitAtDot (pyFloatFixed8 (Int.ofNat t)).toList).2.map List.length)
          = some 8) := by
  refine ⟨?_, ?_, ?_, rfl, ?_⟩
  · rw [query_bucket_tbtc]
    simpa using foldl_add_eq_sum
      (fun am => ((pickAmount am).map Prod.snd).getD 0) entries 0
  · intro am
    rw [pickAmount, pickLoop_eq_find, firstPreferredKey]
  · intro am _ hn
    rw [firstPreferredKey] at hn
    rw [pickAmount, pickLoop_eq_find, hn]
    simp
  · intro t
    have hnab : (Int.ofNat t).natAbs = t := Int.natAbs_ofNat t
    have hge : (0 : Int) ≤ Int.ofNat t := Int.natCast_nonneg t
    have h := parse_fixed8Render (Int.ofNat t) hge (pyFloat8Scaled t)
    constructor
    · show parseDecScaled
          (fixed8Render (Int.ofNat t) (pyFloat8Scaled (Int.ofNat t).natAbs)) 8
        = some (pyFloat8Scaled t)
      rw [hnab]
      exact h.1
    · show ((splitAtDot (fixed8Render (Int.ofNat t)
          (pyFloat8Scaled (Int.ofNat t).natAbs)).toList).2.map List.length)
        = some 8
      rw [hnab]
      exact h.2

set_option maxRecDepth 65536 in
/-- Witness for `bucket_aggregation`: entries `[{balance: 5566768803},
{foo: 1}]` total 5566768803; the second entry has no preferred key and
picks `(None, None)`; the human string re-scales to the float-rounded
value, which at this magnitude equals the total. -/
theorem bucket_aggregation_check :
    (query_bucket_tbtc [[("balance", 5566768803)], [("foo", 1)]]).1 = 5566768803
    ∧ ((pickAmount [("foo", 1)]).map Prod.fst,
       (pickAmount [("foo", 1)]).map Prod.snd) = (none, none)
    ∧ parseDecScaled
        (query_bucket_tbtc [[("balance", 5566768803)], [("foo", 1)]]).2.2 8
      = some 5566768803 := by
  have h := bucket_aggregation [[("balance", 5566768803)], [("foo", 1)]]
  have h1 : (query_bucket_tbtc [[("balance", 5566768803)], [("foo", 1)]]).1
      = 5566768803 := by decide
  refine ⟨h1, (h.2.2.1 [("foo", 1)] (by simp) (by decide)).1, ?_⟩
  rw [h.2.2.2.1, h1]
  have h5 := (h.2.2.2.2 5566768803).1
  rw [show pyFloat8Scaled 5566768803 = 5566768803 from by decide] at h5
  exact h5

end AlphalendSupply
